import Mathlib

/-!
# Robin Hood hash map (`hashmap.h`): embedding and verification

The C++ class `HashMap<KeyType, ValueType, Hash>` keeps

* `elements_list_` : a `std::list` of pairs (the record store, iterated by the user),
* `array_`         : a `std::vector` of `{iter, distance}` slots (the probe table),
* `size_`, `hasher_`.

Modelling conventions.

* A `std::list` iterator is a reference to a list node.  Every node carries the
  reference (`ref`) under which it was allocated; the map carries the allocation
  counter `next_ref_`.  `end()` is `none`.  Dereferencing an iterator that does not
  designate a live node is undefined behaviour.
* Undefined behaviour (division by zero in `% array_.size()`, out-of-bounds
  subscript, invalid iterator), the exception thrown by `at`, and a loop or a
  recursion that does not come to an end are the three values of `Fault`.
* Each `while` loop over the probe table gets `array_.size()` iterations: the
  position advances by one slot cyclically, so a loop that has not stopped after
  that many iterations has inspected every slot.  Recursion (`insert` calling
  `resize_map` calling `insert`, and `operator[]` calling itself) takes an explicit
  budget of nested activations.
* `LOAD_FACTOR = 0.65` is read as the rational `13/20`; the comparisons and the
  ceiling are computed exactly on natural numbers.
* Positions and distances are unbounded integers (the wrap-around of `int32_t`
  and `size_t` concerns tables of `2^31` slots and more, which are not modelled).
-/

set_option linter.unusedSectionVars false

namespace RobinHood

/-- The ways in which a call can fail to return a result. -/
inductive Fault where
  | out_of_range
  | undefined_behaviour
  | no_termination
  deriving DecidableEq, Repr

/-- A node of `elements_list_`: the pair it stores and the reference that list
iterators use to designate it. -/
structure list_node (K V : Type) where
  ref : Nat
  first : K
  second : V
  deriving DecidableEq, Repr

/-- The struct `array_element`: a list iterator (`none` is `end()`) and a probe
distance; distance `-1` marks a free slot. -/
structure array_element where
  iter : Option Nat
  distance : Int
  deriving DecidableEq, Repr

/-- The data members of `HashMap`, with the allocation counter of the list. -/
structure HashMap (K V : Type) where
  hasher_ : K → Nat
  size_ : Nat
  elements_list_ : List (list_node K V)
  array_ : List array_element
  next_ref_ : Nat

section Operations

variable {K V : Type} [DecidableEq K]

/-- `LOAD_FACTOR = 0.65 = 13/20`: numerator. -/
def LOAD_FACTOR_NUM : Nat := 13

/-- `LOAD_FACTOR = 0.65 = 13/20`: denominator. -/
def LOAD_FACTOR_DEN : Nat := 20

/-- `size_ + 1 >= array_.size() * LOAD_FACTOR`, the test at the head of `insert`. -/
def needs_resize (size_ capacity : Nat) : Bool :=
  decide (LOAD_FACTOR_NUM * capacity ≤ LOAD_FACTOR_DEN * (size_ + 1))

/-- `std::ceil(double(size_ + 1) / LOAD_FACTOR)`. -/
def ceil_load (size_ : Nat) : Nat :=
  (LOAD_FACTOR_DEN * (size_ + 1) + (LOAD_FACTOR_NUM - 1)) / LOAD_FACTOR_NUM

/-- `array_[i]` for an unsigned index. -/
def subscript (array_ : List array_element) (i : Nat) : Except Fault array_element :=
  match array_[i]? with
  | some e => .ok e
  | none => .error .undefined_behaviour

/-- `array_[pos]` for an `int32_t` index. -/
def subscript_int (array_ : List array_element) (pos : Int) : Except Fault array_element :=
  if pos < 0 then .error .undefined_behaviour else subscript array_ pos.toNat

/-- `*iter` for a list iterator. -/
def deref (elements_list_ : List (list_node K V)) (iter : Option Nat) :
    Except Fault (list_node K V) :=
  match iter with
  | none => .error .undefined_behaviour
  | some r =>
    match elements_list_.find? (fun nd => decide (nd.ref = r)) with
    | some nd => .ok nd
    | none => .error .undefined_behaviour

/-- A range-`for` whose body may fail. -/
def for_each {S A : Type} (body : S → A → Except Fault S) : List A → S → Except Fault S
  | [], s => .ok s
  | x :: xs, s =>
    match body s x with
    | .error f => .error f
    | .ok s' => for_each body xs s'

/-- `HashMap(Hash new_hasher = Hash())`. -/
def HashMap.new (new_hasher : K → Nat) : HashMap K V :=
  { hasher_ := new_hasher, size_ := 0, elements_list_ := [], array_ := [], next_ref_ := 0 }

/-- `size()`. -/
def HashMap.size (m : HashMap K V) : Nat := m.size_

/-- `empty()`. -/
def HashMap.empty (m : HashMap K V) : Bool := decide (m.size_ = 0)

/-- `hash_function()`. -/
def HashMap.hash_function (m : HashMap K V) : K → Nat := m.hasher_

/-- `clear()`. -/
def HashMap.clear (m : HashMap K V) : HashMap K V :=
  { m with array_ := [], elements_list_ := [], size_ := 0 }

/-- The sequence of pairs met by iterating from `begin()` to `end()`. -/
def HashMap.iteration (m : HashMap K V) : List (K × V) :=
  m.elements_list_.map (fun nd => (nd.first, nd.second))

/-- The `while` loop of `get_key_position`. -/
def get_key_position_loop (m : HashMap K V) (key : K) : Nat → Nat → Except Fault Int
  | 0, _ => .error .no_termination
  | fuel + 1, current_position =>
    match subscript m.array_ current_position with
    | .error f => .error f
    | .ok e =>
      if e.distance ≠ -1 then
        match deref m.elements_list_ e.iter with
        | .error f => .error f
        | .ok nd =>
          if nd.first = key then .ok (current_position : Int)
          else get_key_position_loop m key fuel ((current_position + 1) % m.array_.length)
      else .ok (-1)

/-- `get_key_position(key)`. -/
def HashMap.get_key_position (m : HashMap K V) (key : K) : Except Fault Int :=
  if m.size_ > 0 then
    if m.array_.length = 0 then .error .undefined_behaviour
    else get_key_position_loop m key m.array_.length (m.hasher_ key % m.array_.length)
  else .ok (-1)

/-- `find(key)`: the iterator found, `none` for `end()`. -/
def HashMap.find (m : HashMap K V) (key : K) : Except Fault (Option Nat) :=
  match m.get_key_position key with
  | .error f => .error f
  | .ok pos =>
    if pos ≠ -1 then
      match subscript_int m.array_ pos with
      | .error f => .error f
      | .ok e => .ok e.iter
    else .ok none

/-- `at(key)`. -/
def HashMap.at (m : HashMap K V) (key : K) : Except Fault V :=
  match m.get_key_position key with
  | .error f => .error f
  | .ok pos =>
    if pos ≠ -1 then
      match subscript_int m.array_ pos with
      | .error f => .error f
      | .ok e =>
        match deref m.elements_list_ e.iter with
        | .error f => .error f
        | .ok nd => .ok nd.second
    else .error .out_of_range

/-- The first `while` loop of `insert` (the existence check): the value of
`is_already_inserted` when it ends. -/
def insert_scan (m : HashMap K V) (key : K) : Nat → Nat → Except Fault Bool
  | 0, _ => .error .no_termination
  | fuel + 1, current_position =>
    match subscript m.array_ current_position with
    | .error f => .error f
    | .ok e =>
      if e.distance ≠ -1 then
        match deref m.elements_list_ e.iter with
        | .error f => .error f
        | .ok nd =>
          if nd.first = key then .ok true
          else insert_scan m key fuel ((current_position + 1) % m.array_.length)
      else .ok false

/-- The second `while` loop of `insert` (the displacement walk) with the two
assignments that follow it: the probe table when the carried element is written. -/
def insert_walk : Nat → List array_element → Nat → Int → Option Nat →
    Except Fault (List array_element)
  | 0, _, _, _, _ => .error .no_termination
  | fuel + 1, array_, current_position, current_distance, current_iterator =>
    match subscript array_ current_position with
    | .error f => .error f
    | .ok e =>
      if e.distance ≠ -1 then
        if e.distance < current_distance then
          insert_walk fuel (array_.set current_position ⟨current_iterator, current_distance⟩)
            ((current_position + 1) % array_.length) (e.distance + 1) e.iter
        else
          insert_walk fuel array_ ((current_position + 1) % array_.length)
            (current_distance + 1) current_iterator
      else .ok (array_.set current_position ⟨current_iterator, current_distance⟩)

/-- The body of `insert` after the resize test (lines 122 to 150). -/
def insert_body (m : HashMap K V) (p : K × V) : Except Fault (HashMap K V) :=
  if m.array_.length = 0 then .error .undefined_behaviour
  else
    match insert_scan m p.1 m.array_.length (m.hasher_ p.1 % m.array_.length) with
    | .error f => .error f
    | .ok is_already_inserted =>
      if !is_already_inserted then
        match insert_walk m.array_.length m.array_ (m.hasher_ p.1 % m.array_.length) 0
            (some m.next_ref_) with
        | .error f => .error f
        | .ok a =>
          .ok { m with
                size_ := m.size_ + 1
                elements_list_ := m.elements_list_ ++ [⟨m.next_ref_, p.1, p.2⟩]
                array_ := a
                next_ref_ := m.next_ref_ + 1 }
      else .ok m

/-- `resize_map()`, the `insert` it calls on every element being a parameter. -/
def resize_map_with (ins : HashMap K V → K × V → Except Fault (HashMap K V))
    (m : HashMap K V) : Except Fault (HashMap K V) :=
  let new_size :=
    if 2 * m.array_.length < ceil_load m.size_ then ceil_load m.size_
    else 2 * m.array_.length
  for_each (fun acc nd => ins acc (nd.first, nd.second)) m.elements_list_
    { m with size_ := 0, elements_list_ := [],
             array_ := List.replicate new_size ⟨none, -1⟩ }

/-- `insert(p)` with a budget of nested activations of `insert`. -/
def HashMap.insert : Nat → HashMap K V → K × V → Except Fault (HashMap K V)
  | 0, _, _ => .error .no_termination
  | depth + 1, m, p =>
    if needs_resize m.size_ m.array_.length then
      match resize_map_with (HashMap.insert depth) m with
      | .error f => .error f
      | .ok m' => insert_body m' p
    else insert_body m p

/-- `resize_map()`. -/
def HashMap.resize_map (depth : Nat) (m : HashMap K V) : Except Fault (HashMap K V) :=
  resize_map_with (HashMap.insert depth) m

/-- The backward-shift `while` loop of `erase` with the assignment that follows
it. -/
def erase_shift : Nat → List array_element → Nat → Nat → Except Fault (List array_element)
  | 0, _, _, _ => .error .no_termination
  | fuel + 1, array_, current_position, next_position =>
    match subscript array_ next_position with
    | .error f => .error f
    | .ok e =>
      if e.distance > 0 then
        erase_shift fuel (array_.set current_position ⟨e.iter, e.distance - 1⟩)
          next_position ((next_position + 1) % array_.length)
      else
        match subscript array_ current_position with
        | .error f => .error f
        | .ok c => .ok (array_.set current_position ⟨c.iter, -1⟩)

/-- `erase(key)`. -/
def HashMap.erase (m : HashMap K V) (key : K) : Except Fault (HashMap K V) :=
  match m.get_key_position key with
  | .error f => .error f
  | .ok current_position =>
    if current_position ≠ -1 then
      match subscript_int m.array_ current_position with
      | .error f => .error f
      | .ok e =>
        match deref m.elements_list_ e.iter with
        | .error f => .error f
        | .ok nd =>
          if m.array_.length = 0 then .error .undefined_behaviour
          else
            match erase_shift m.array_.length m.array_ current_position.toNat
                ((current_position.toNat + 1) % m.array_.length) with
            | .error f => .error f
            | .ok a =>
              .ok { m with
                    size_ := m.size_ - 1
                    elements_list_ := m.elements_list_.filter (fun x => decide (x.ref ≠ nd.ref))
                    array_ := a }
    else .ok m

/-- `operator[](key)` with a budget of activations of `operator[]` and one of
`insert`: the map after the call and the node whose `second` the returned
reference designates. -/
def HashMap.subscript_op [Inhabited V] (depth : Nat) :
    Nat → HashMap K V → K → Except Fault (HashMap K V × Nat)
  | 0, _, _ => .error .no_termination
  | calls + 1, m, key =>
    match m.get_key_position key with
    | .error f => .error f
    | .ok pos =>
      if pos ≠ -1 then
        match subscript_int m.array_ pos with
        | .error f => .error f
        | .ok e =>
          match deref m.elements_list_ e.iter with
          | .error f => .error f
          | .ok nd => .ok (m, nd.ref)
      else
        match HashMap.insert depth m (key, default) with
        | .error f => .error f
        | .ok m' => HashMap.subscript_op depth calls m' key

/-- Reading `second` through a reference to a node. -/
def HashMap.read (m : HashMap K V) (r : Nat) : Except Fault V :=
  match deref m.elements_list_ (some r) with
  | .error f => .error f
  | .ok nd => .ok nd.second

/-- Assigning to `second` through a reference to a node (`map[key] = value`,
`it->second = value`). -/
def HashMap.write (m : HashMap K V) (r : Nat) (value : V) : Except Fault (HashMap K V) :=
  match deref m.elements_list_ (some r) with
  | .error f => .error f
  | .ok _ =>
    .ok { m with
          elements_list_ :=
            m.elements_list_.map (fun nd => if nd.ref = r then { nd with second := value } else nd) }

/-- `HashMap(const HashMap &other)`: `hasher_` is default-constructed
(`default_hasher` stands for `Hash()`). -/
def HashMap.copy (depth : Nat) (default_hasher : K → Nat) (other : HashMap K V) :
    Except Fault (HashMap K V) :=
  for_each (fun acc nd => HashMap.insert depth acc (nd.first, nd.second)) other.elements_list_
    { hasher_ := default_hasher, size_ := 0, elements_list_ := [], array_ := [],
      next_ref_ := 0 }

/-- `operator=(const HashMap &other)`; `temp` is read from `other` before the
members of `*this` are cleared, so the result is the same when `other` is
`*this`. -/
def HashMap.assign (depth : Nat) (m other : HashMap K V) : Except Fault (HashMap K V) :=
  let temp := other.elements_list_
  for_each (fun acc nd => HashMap.insert depth acc (nd.first, nd.second)) temp
    { m with size_ := 0, elements_list_ := [], array_ := [] }

/-- `HashMap(Iterator begin, Iterator end, Hash new_hasher = Hash())`. -/
def HashMap.from_range (depth : Nat) (items : List (K × V)) (new_hasher : K → Nat) :
    Except Fault (HashMap K V) :=
  for_each (fun acc p => HashMap.insert depth acc (p.1, p.2)) items
    { hasher_ := new_hasher, size_ := 0, elements_list_ := [], array_ := [], next_ref_ := 0 }

/-- `HashMap(const std::initializer_list<...> &list, Hash new_hasher = Hash())`:
the member `hasher_` is not initialised from `new_hasher`, it is default-constructed
(`default_hasher` stands for `Hash()`). -/
def HashMap.from_list [Inhabited V] (depth calls : Nat) (default_hasher : K → Nat)
    (list : List (K × V)) (_new_hasher : K → Nat) : Except Fault (HashMap K V) :=
  for_each
    (fun acc p =>
      match HashMap.subscript_op depth calls acc p.1 with
      | .error f => .error f
      | .ok (acc', r) => HashMap.write acc' r p.2)
    list
    { hasher_ := default_hasher, size_ := 0, elements_list_ := [], array_ := [],
      next_ref_ := 0 }

end Operations

/-! ## Definitions of the verification: slots, invariants, reachable maps, and the
sequences that the claims speak of -/

section SlotDefinitions

/-- The free slot written by `array_.resize(new_size, ...)`. -/
def free_slot : array_element := ⟨none, -1⟩

/-- The slot at index `i`; outside the table it reads as a free slot. -/
def slot (a : List array_element) (i : Nat) : array_element := a.getD i free_slot

/-- The loop test `distance != -1`. -/
def is_occupied (e : array_element) : Bool := decide (e.distance ≠ -1)

/-- The number of occupied slots. -/
def occupied_count (a : List array_element) : Nat := a.countP is_occupied

end SlotDefinitions

section TableDefinitions

variable {K : Type}

/-- Slot content `e` at index `i` of a table of `n` slots designates a live node
`(r, k)` and stores the exact probe distance of key `k`. -/
def slot_exact (h : K → Nat) (R : List (Nat × K)) (n i : Nat) (e : array_element) : Prop :=
  ∃ r k, (r, k) ∈ R ∧ e.iter = some r ∧ 0 ≤ e.distance ∧ e.distance < (n : Int) ∧
    (h k + e.distance.toNat) % n = i

/-- Some occupied slot of `a` holds the iterator `x`. -/
def holds (a : List array_element) (x : Option Nat) : Prop :=
  ∃ i, (slot a i).distance ≠ -1 ∧ (slot a i).iter = x

/-- The slot-wise part of the invariant: exact distances, Robin Hood ordering of
neighbours (which carries probe-chain contiguity), no iterator stored twice. -/
structure TableCore (h : K → Nat) (R : List (Nat × K)) (a : List array_element) : Prop where
  exact : ∀ i, (slot a i).distance ≠ -1 → slot_exact h R a.length i (slot a i)
  ordered : ∀ j, j < a.length → 0 < (slot a ((j + 1) % a.length)).distance →
    (slot a j).distance ≠ -1 ∧
      (slot a ((j + 1) % a.length)).distance ≤ (slot a j).distance + 1
  inj : ∀ i j, (slot a i).distance ≠ -1 → (slot a j).distance ≠ -1 →
    (slot a i).iter = (slot a j).iter → i = j

/-- The invariant of the probe table with respect to the (reference, key) pairs
of the list nodes. -/
structure TableInv (h : K → Nat) (R : List (Nat × K)) (a : List array_element) : Prop where
  core : TableCore h R a
  surj : ∀ r k, (r, k) ∈ R → holds a (some r)
  count : occupied_count a = R.length

/-- The state of the displacement walk: a well-formed table, and a carried element
that is not in the table and could be written at the current position. -/
structure WalkState (h : K → Nat) (R : List (Nat × K)) (a : List array_element)
    (pos : Nat) (cd : Int) (c : Option Nat) : Prop where
  pos_lt : pos < a.length
  core : TableCore h R a
  carry : slot_exact h R a.length pos ⟨c, cd⟩
  carry_new : ∀ i, (slot a i).distance ≠ -1 → (slot a i).iter ≠ c
  carry_ordered : 0 < cd → ∀ j, j < a.length → (j + 1) % a.length = pos →
    (slot a j).distance ≠ -1 ∧ cd ≤ (slot a j).distance + 1

/-- Some occupied slot of `a` other than slot `p` holds the iterator `x`. -/
def holds_except (a : List array_element) (p : Nat) (x : Option Nat) : Prop :=
  ∃ i, i ≠ p ∧ (slot a i).distance ≠ -1 ∧ (slot a i).iter = x

/-- The state of the backward shift: slot `cur` is the vacated slot, whose content
no longer counts; every other slot is well formed. -/
structure ShiftState (h : K → Nat) (R : List (Nat × K)) (a : List array_element)
    (cur : Nat) : Prop where
  cur_lt : cur < a.length
  two : 2 ≤ a.length
  hole : (slot a cur).distance ≠ -1
  exact : ∀ i, i ≠ cur → (slot a i).distance ≠ -1 → slot_exact h R a.length i (slot a i)
  ordered : ∀ j, j < a.length → 0 < (slot a ((j + 1) % a.length)).distance →
    (slot a j).distance ≠ -1 ∧
      (slot a ((j + 1) % a.length)).distance ≤ (slot a j).distance + 1
  inj : ∀ i j, i ≠ cur → j ≠ cur → (slot a i).distance ≠ -1 → (slot a j).distance ≠ -1 →
    (slot a i).iter = (slot a j).iter → i = j

end TableDefinitions

section MapDefinitions

variable {K V : Type} [DecidableEq K]

/-- The (reference, key) pairs of the list nodes, in list order. -/
def node_index (L : List (list_node K V)) : List (Nat × K) :=
  L.map (fun nd => (nd.ref, nd.first))

/-- The structural invariant of a map: `size_` is the length of the list, nodes
have distinct references below the allocation counter and distinct keys, and the
probe table is a well-formed index of the list. -/
structure Wf (m : HashMap K V) : Prop where
  size_eq : m.size_ = m.elements_list_.length
  refs_nodup : (m.elements_list_.map (fun nd => nd.ref)).Nodup
  refs_lt : ∀ nd, nd ∈ m.elements_list_ → nd.ref < m.next_ref_
  keys_nodup : (m.elements_list_.map (fun nd => nd.first)).Nodup
  table : TableInv m.hasher_ (node_index m.elements_list_) m.array_

/-- The invariant of every reachable map: well-formedness and the load bound
`size_ <= array_.size() * 13/20`. -/
structure Inv (m : HashMap K V) : Prop where
  wf : Wf m
  load : 20 * m.size_ ≤ 13 * m.array_.length

/-- The map after the body of `insert` has stored a new pair in probe table `a`. -/
def inserted (m : HashMap K V) (p : K × V) (a : List array_element) : HashMap K V :=
  { m with
    size_ := m.size_ + 1
    elements_list_ := m.elements_list_ ++ [⟨m.next_ref_, p.1, p.2⟩]
    array_ := a
    next_ref_ := m.next_ref_ + 1 }

/-- The capacity chosen by `resize_map`. -/
def new_capacity (size_ capacity : Nat) : Nat :=
  if 2 * capacity < ceil_load size_ then ceil_load size_ else 2 * capacity

/-- The keys met by iterating over the map. -/
def HashMap.keys (m : HashMap K V) : List K := m.iteration.map Prod.fst

/-- The map after `erase` has removed node `nd` and left probe table `a`. -/
def erased (m : HashMap K V) (nd : list_node K V) (a : List array_element) : HashMap K V :=
  { m with
    size_ := m.size_ - 1
    elements_list_ := m.elements_list_.filter (fun x => decide (x.ref ≠ nd.ref))
    array_ := a }

/-- The list after an assignment to `second` through reference `r`. -/
def assigned (L : List (list_node K V)) (r : Nat) (value : V) : List (list_node K V) :=
  L.map (fun nd => if nd.ref = r then { nd with second := value } else nd)

/-- The probe table is one chain that starts at slot `home`: the `u`-th slot from
`home` holds the `u`-th key of the iteration sequence with distance `u`, for
`u < size_`, and every other slot is free. -/
def same_home_stack (m : HashMap K V) (home : Nat) : Prop :=
  ∀ u, u < m.array_.length →
    (u < m.size_ →
      (slot m.array_ ((home + u) % m.array_.length)).distance = (u : Int) ∧
      ∃ nd, deref m.elements_list_ (slot m.array_ ((home + u) % m.array_.length)).iter = .ok nd ∧
        m.keys[u]? = some nd.first) ∧
    (m.size_ ≤ u → (slot m.array_ ((home + u) % m.array_.length)).distance = -1)

end MapDefinitions

section ReachabilityDefinitions

variable {K V : Type} [DecidableEq K] [Inhabited V]

/-- The maps that a program can build: a freshly constructed map, and the result
of every call of `insert`, `erase`, `operator[]`, `clear`, of the public
`resize_map`, and of every assignment through a reference obtained from the map,
whenever the call returns. -/
inductive Reachable : HashMap K V → Prop where
  | new (h : K → Nat) : Reachable (HashMap.new h)
  | insert (d : Nat) (p : K × V) {m m' : HashMap K V} :
      Reachable m → HashMap.insert d m p = .ok m' → Reachable m'
  | erase (key : K) {m m' : HashMap K V} :
      Reachable m → m.erase key = .ok m' → Reachable m'
  | subscript_op (d calls : Nat) (key : K) {m m' : HashMap K V} {r : Nat} :
      Reachable m → HashMap.subscript_op d calls m key = .ok (m', r) → Reachable m'
  | write (r : Nat) (value : V) {m m' : HashMap K V} :
      Reachable m → m.write r value = .ok m' → Reachable m'
  | clear {m : HashMap K V} : Reachable m → Reachable m.clear
  | resize_map (d : Nat) {m m' : HashMap K V} :
      Reachable m → m.resize_map d = .ok m' → Reachable m'

/-- The first occurrence of each key of a sequence of pairs, in order of first
appearance: a pair is kept, and the later pairs with its key are dropped. -/
def first_occurrences : List (K × V) → List (K × V)
  | [] => []
  | p :: ps => p :: (first_occurrences ps).filter (fun q => decide (q.1 ≠ p.1))

/-- The number of distinct keys of a sequence of pairs. -/
def distinct_keys (items : List (K × V)) : Nat := (items.map Prod.fst).toFinset.card

/-- The value of the last pair of key `k` in `list`; `fallback` when no pair has
key `k`. -/
def last_value (list : List (K × V)) (k : K) (fallback : V) : V :=
  match list with
  | [] => fallback
  | p :: ps => last_value ps k (if p.1 = k then p.2 else fallback)

/-- The effect of `map[p.first] = p.second` on the iteration sequence: the value
of a stored key is replaced in place, a pair with a new key is appended. -/
def assign_step (l : List (K × V)) (p : K × V) : List (K × V) :=
  if p.1 ∈ l.map Prod.fst then l.map (fun q => if q.1 = p.1 then (q.1, p.2) else q)
  else l ++ [p]

/-- The hasher of the examples: a number is its own hash. -/
def sample_hasher : Nat → Nat := fun k => k

/-- The map obtained from a fresh map by `insert({1, 10})`, `insert({5, 50})`,
`insert({9, 90})`: the table has grown to 2, 4 and 8 slots, and key 9, whose home
slot 1 is taken by key 1, sits at distance 1. -/
def sample_map : HashMap Nat Nat :=
  { hasher_ := sample_hasher
    size_ := 3
    elements_list_ := [⟨3, 1, 10⟩, ⟨4, 5, 50⟩, ⟨5, 9, 90⟩]
    array_ := [⟨none, -1⟩, ⟨some 3, 0⟩, ⟨some 5, 1⟩, ⟨none, -1⟩, ⟨none, -1⟩, ⟨some 4, 0⟩,
      ⟨none, -1⟩, ⟨none, -1⟩]
    next_ref_ := 6 }

/-- The map obtained from a fresh map by `insert({1, 10})`, `insert({5, 50})`:
four slots, two of them occupied, so that the next `insert` resizes the table. -/
def small_map : HashMap Nat Nat :=
  { hasher_ := sample_hasher
    size_ := 2
    elements_list_ := [⟨1, 1, 10⟩, ⟨2, 5, 50⟩]
    array_ := [⟨none, -1⟩, ⟨some 1, 0⟩, ⟨some 2, 1⟩, ⟨none, -1⟩]
    next_ref_ := 3 }

/-- The map obtained from a fresh map by `insert({0, 0})`, `insert({8, 80})`,
`insert({16, 160})`: three keys with home slot 0, stored in slots 0, 1, 2 of a
table of 8 slots with distances 0, 1, 2. -/
def chain_map : HashMap Nat Nat :=
  { hasher_ := sample_hasher
    size_ := 3
    elements_list_ := [⟨3, 0, 0⟩, ⟨4, 8, 80⟩, ⟨5, 16, 160⟩]
    array_ := [⟨some 3, 0⟩, ⟨some 4, 1⟩, ⟨some 5, 2⟩, ⟨none, -1⟩, ⟨none, -1⟩, ⟨none, -1⟩,
      ⟨none, -1⟩, ⟨none, -1⟩]
    next_ref_ := 6 }

end ReachabilityDefinitions

/-! ## Theorems -/

/-! ## Cyclic positions -/

section Cyclic

theorem mod_succ_shift (x n : Nat) : (x % n + 1) % n = (x + 1) % n := by
  simp [Nat.add_mod]

theorem mod_add_shift (x t n : Nat) : (x % n + t) % n = (x + t) % n := by
  simp [Nat.add_mod]

theorem succ_mod_inj {j p n : Nat} (hj : j < n) (hp : p < n)
    (h : (j + 1) % n = (p + 1) % n) : j = p := by
  have h1 := Nat.ModEq.add_right_cancel' 1 h
  rw [Nat.ModEq, Nat.mod_eq_of_lt hj, Nat.mod_eq_of_lt hp] at h1
  exact h1

theorem succ_mod_ne {j n : Nat} (hn : 2 ≤ n) (hj : j < n) : (j + 1) % n ≠ j := by
  intro h
  by_cases hlt : j + 1 < n
  · rw [Nat.mod_eq_of_lt hlt] at h; omega
  · have hjn : j + 1 = n := by omega
    rw [hjn, Nat.mod_self] at h; omega

theorem cyc_reach {p q n : Nat} (hp : p < n) (hq : q < n) :
    ∃ t, t < n ∧ (p + t) % n = q := by
  by_cases hle : p ≤ q
  · refine ⟨q - p, by omega, ?_⟩
    have : p + (q - p) = q := by omega
    rw [this]; exact Nat.mod_eq_of_lt hq
  · refine ⟨q + n - p, by omega, ?_⟩
    have : p + (q + n - p) = q + n := by omega
    rw [this, Nat.add_mod_right]; exact Nat.mod_eq_of_lt hq

theorem mod_pred_of_succ {x c n : Nat} (hc : c < n)
    (h : (x + 1) % n = (c + 1) % n) : x % n = c := by
  have h1 := Nat.ModEq.add_right_cancel' 1 h
  rw [Nat.ModEq, Nat.mod_eq_of_lt hc] at h1
  exact h1

end Cyclic

/-! ## Slots of the probe table -/

section Slots

theorem slot_of_lt {a : List array_element} {i : Nat} (h : i < a.length) :
    a[i]? = some (slot a i) := by
  simp [slot, List.getD_eq_getElem?_getD, List.getElem?_eq_getElem h]

theorem slot_of_ge {a : List array_element} {i : Nat} (h : a.length ≤ i) :
    slot a i = free_slot := by
  simp [slot, List.getD_eq_getElem?_getD, List.getElem?_eq_none h]

theorem lt_of_slot_distance {a : List array_element} {i : Nat}
    (h : (slot a i).distance ≠ -1) : i < a.length := by
  by_contra hge
  rw [slot_of_ge (by omega)] at h
  exact h rfl

theorem subscript_of_lt {a : List array_element} {i : Nat} (h : i < a.length) :
    subscript a i = .ok (slot a i) := by
  simp [subscript, slot_of_lt h]

theorem slot_set (a : List array_element) (p i : Nat) (x : array_element) :
    slot (a.set p x) i = if i = p ∧ p < a.length then x else slot a i := by
  unfold slot
  rw [List.getD_eq_getElem?_getD, List.getD_eq_getElem?_getD, List.getElem?_set]
  by_cases h1 : p = i
  · subst h1
    by_cases h2 : p < a.length
    · simp [h2]
    · simp [h2, List.getElem?_eq_none (Nat.le_of_not_lt h2)]
  · have h3 : ¬ (i = p ∧ p < a.length) := fun h => h1 h.1.symm
    simp [h1, h3]

theorem slot_set_self {a : List array_element} {p : Nat} (x : array_element)
    (h : p < a.length) : slot (a.set p x) p = x := by
  rw [slot_set]; simp [h]

theorem slot_set_ne {a : List array_element} {p i : Nat} (x : array_element)
    (h : i ≠ p) : slot (a.set p x) i = slot a i := by
  rw [slot_set]; simp [h]

theorem slot_replicate (n i : Nat) : slot (List.replicate n free_slot) i = free_slot := by
  unfold slot
  rw [List.getD_eq_getElem?_getD, List.getElem?_replicate]
  by_cases h : i < n <;> simp [h]

theorem occupied_count_set {a : List array_element} {p : Nat} (x : array_element)
    (h : p < a.length) :
    occupied_count (a.set p x) + (if is_occupied (slot a p) then 1 else 0)
      = occupied_count a + (if is_occupied x then 1 else 0) := by
  unfold occupied_count
  rw [List.countP_set is_occupied a p x h]
  have hs : a[p] = slot a p := by
    have := slot_of_lt h
    rw [List.getElem?_eq_getElem h] at this
    exact Option.some.inj this
  rw [hs]
  by_cases ho : is_occupied (slot a p) = true
  · have hpos : 0 < List.countP is_occupied a := by
      apply List.countP_pos_iff.mpr
      exact ⟨a[p], List.getElem_mem h, by rw [hs]; exact ho⟩
    simp only [ho, if_true]
    omega
  · simp [ho]

theorem occupied_count_replicate (n : Nat) :
    occupied_count (List.replicate n free_slot) = 0 := by
  unfold occupied_count
  rw [List.countP_eq_zero]
  intro e he
  rw [List.eq_of_mem_replicate he]
  decide

theorem exists_free_slot {a : List array_element} (h : occupied_count a < a.length) :
    ∃ q, q < a.length ∧ (slot a q).distance = -1 := by
  by_contra hno
  have hall : ∀ e ∈ a, is_occupied e = true := by
    intro e he
    obtain ⟨i, hi, hie⟩ := List.getElem_of_mem he
    by_contra hocc
    apply hno
    refine ⟨i, hi, ?_⟩
    have hs : slot a i = e := by
      have := slot_of_lt hi
      rw [List.getElem?_eq_getElem hi, hie] at this
      exact (Option.some.inj this).symm
    rw [hs]
    simpa [is_occupied] using hocc
  have := List.countP_eq_length.mpr hall
  unfold occupied_count at h
  omega

/-- From any position, the first free slot is met after fewer than `length` steps. -/
theorem first_free_from {a : List array_element} (h : occupied_count a < a.length)
    {p : Nat} (hp : p < a.length) :
    ∃ r, r < a.length ∧ (slot a ((p + r) % a.length)).distance = -1 ∧
      ∀ t, t < r → (slot a ((p + t) % a.length)).distance ≠ -1 := by
  obtain ⟨q, hq, hfree⟩ := exists_free_slot h
  obtain ⟨t0, ht0, hreach⟩ := cyc_reach hp hq
  have hex : ∃ r, (slot a ((p + r) % a.length)).distance = -1 := ⟨t0, by rw [hreach]; exact hfree⟩
  classical
  refine ⟨Nat.find hex, ?_, Nat.find_spec hex, ?_⟩
  · exact lt_of_le_of_lt (Nat.find_min' hex (by rw [hreach]; exact hfree)) ht0
  · intro t ht
    exact Nat.find_min hex ht

end Slots

/-! ## The invariant of the probe table -/

section Table

variable {K : Type}

theorem slot_exact_succ {h : K → Nat} {R : List (Nat × K)} {n i : Nat} {e : array_element}
    (he : slot_exact h R n i e) (hb : e.distance + 1 < (n : Int)) :
    slot_exact h R n ((i + 1) % n) ⟨e.iter, e.distance + 1⟩ := by
  obtain ⟨r, k, hmem, hit, h0, _, hpos⟩ := he
  refine ⟨r, k, hmem, hit, by simp only; omega, hb, ?_⟩
  have h1 : (e.distance + 1).toNat = e.distance.toNat + 1 := by omega
  simp only [h1]
  rw [← hpos, mod_succ_shift, Nat.add_assoc]

theorem walk_swap {h : K → Nat} {R : List (Nat × K)} {a : List array_element}
    {pos : Nat} {cd : Int} {c : Option Nat} (w : WalkState h R a pos cd c)
    (hocc : (slot a pos).distance ≠ -1) (hlt : (slot a pos).distance < cd) :
    WalkState h R (a.set pos ⟨c, cd⟩) ((pos + 1) % a.length)
      ((slot a pos).distance + 1) (slot a pos).iter := by
  have hn := w.pos_lt
  have hex := w.core.exact pos hocc
  obtain ⟨r0, k0, hmem0, hit0, hd0, hdn0, hpos0⟩ := hex
  obtain ⟨rc, kc, hmemc, hitc, hcd0, hcdn, hposc⟩ := w.carry
  simp only at hitc hcd0 hcdn hposc
  have hn2 : 2 ≤ a.length := by omega
  refine ⟨?_, ⟨?_, ?_, ?_⟩, ?_, ?_, ?_⟩
  · rw [List.length_set]; exact Nat.mod_lt _ (by omega)
  · intro i hi
    rw [List.length_set]
    by_cases hip : i = pos
    · subst hip; rw [slot_set_self _ hn]; exact w.carry
    · rw [slot_set_ne _ hip] at hi ⊢; exact w.core.exact i hi
  · intro j hj hs
    rw [List.length_set] at hj hs ⊢
    by_cases hjp : j = pos
    · subst hjp
      have hne := succ_mod_ne hn2 hn
      rw [slot_set_ne _ hne] at hs ⊢
      rw [slot_set_self _ hn]
      have hord := w.core.ordered j hn hs
      simp only
      constructor <;> omega
    · rw [slot_set_ne _ hjp]
      by_cases hsp : (j + 1) % a.length = pos
      · rw [hsp, slot_set_self _ hn] at hs ⊢
        exact w.carry_ordered hs j hj hsp
      · rw [slot_set_ne _ hsp] at hs ⊢
        exact w.core.ordered j hj hs
  · intro i j hi hj hij
    by_cases hip : i = pos
    · by_cases hjp : j = pos
      · rw [hip, hjp]
      · exfalso
        rw [slot_set_ne _ hjp] at hj hij
        rw [hip, slot_set_self _ hn] at hij
        exact w.carry_new j hj hij.symm
    · by_cases hjp : j = pos
      · exfalso
        rw [slot_set_ne _ hip] at hi hij
        rw [hjp, slot_set_self _ hn] at hij
        exact w.carry_new i hi hij
      · rw [slot_set_ne _ hip] at hi hij
        rw [slot_set_ne _ hjp] at hj hij
        exact w.core.inj i j hi hj hij
  · rw [List.length_set]
    exact slot_exact_succ ⟨r0, k0, hmem0, hit0, hd0, hdn0, hpos0⟩ (by omega)
  · intro i hi hii
    by_cases hip : i = pos
    · rw [hip, slot_set_self _ hn] at hii
      exact w.carry_new pos hocc hii.symm
    · rw [slot_set_ne _ hip] at hi hii
      exact hip (w.core.inj i pos hi hocc hii)
  · intro _ j hj hsucc
    rw [List.length_set] at hj hsucc
    have hjp : j = pos := succ_mod_inj hj hn hsucc
    rw [hjp, slot_set_self _ hn]
    simp only
    constructor <;> omega

theorem walk_skip {h : K → Nat} {R : List (Nat × K)} {a : List array_element}
    {pos : Nat} {cd : Int} {c : Option Nat} (w : WalkState h R a pos cd c)
    (hocc : (slot a pos).distance ≠ -1) (hge : ¬ (slot a pos).distance < cd)
    (hb : cd + 1 < (a.length : Int)) :
    WalkState h R a ((pos + 1) % a.length) (cd + 1) c := by
  have hn := w.pos_lt
  refine ⟨Nat.mod_lt _ (by omega), w.core, ?_, w.carry_new, ?_⟩
  · exact slot_exact_succ w.carry hb
  · intro _ j hj hsucc
    have hjp : j = pos := succ_mod_inj hj hn hsucc
    rw [hjp]
    constructor
    · exact hocc
    · omega

theorem walk_place {h : K → Nat} {R : List (Nat × K)} {a : List array_element}
    {pos : Nat} {cd : Int} {c : Option Nat} (w : WalkState h R a pos cd c)
    (hfree : (slot a pos).distance = -1) :
    TableCore h R (a.set pos ⟨c, cd⟩) := by
  have hn := w.pos_lt
  obtain ⟨rc, kc, hmemc, hitc, hcd0, hcdn, hposc⟩ := w.carry
  simp only at hitc hcd0 hcdn hposc
  refine ⟨?_, ?_, ?_⟩
  · intro i hi
    rw [List.length_set]
    by_cases hip : i = pos
    · subst hip; rw [slot_set_self _ hn]; exact w.carry
    · rw [slot_set_ne _ hip] at hi ⊢; exact w.core.exact i hi
  · intro j hj hs
    rw [List.length_set] at hj hs ⊢
    by_cases hjp : j = pos
    · exfalso
      subst hjp
      by_cases hsp : (j + 1) % a.length = j
      · rw [hsp, slot_set_self _ hn] at hs
        simp only at hs
        have := (w.carry_ordered hs j hj hsp).1
        exact this hfree
      · rw [slot_set_ne _ hsp] at hs
        exact (w.core.ordered j hn hs).1 hfree
    · rw [slot_set_ne _ hjp]
      by_cases hsp : (j + 1) % a.length = pos
      · rw [hsp, slot_set_self _ hn] at hs ⊢
        exact w.carry_ordered hs j hj hsp
      · rw [slot_set_ne _ hsp] at hs ⊢
        exact w.core.ordered j hj hs
  · intro i j hi hj hij
    by_cases hip : i = pos
    · by_cases hjp : j = pos
      · rw [hip, hjp]
      · exfalso
        rw [slot_set_ne _ hjp] at hj hij
        rw [hip, slot_set_self _ hn] at hij
        exact w.carry_new j hj hij.symm
    · by_cases hjp : j = pos
      · exfalso
        rw [slot_set_ne _ hip] at hi hij
        rw [hjp, slot_set_self _ hn] at hij
        exact w.carry_new i hi hij
      · rw [slot_set_ne _ hip] at hi hij
        rw [slot_set_ne _ hjp] at hj hij
        exact w.core.inj i j hi hj hij

theorem holds_set {a : List array_element} {p : Nat} {e : array_element}
    (hp : p < a.length) (he : e.distance ≠ -1) (x : Option Nat) :
    holds (a.set p e) x ↔ (x = e.iter ∨ holds_except a p x) := by
  constructor
  · rintro ⟨i, hi, hx⟩
    by_cases hip : i = p
    · rw [hip, slot_set_self _ hp] at hx
      exact Or.inl hx.symm
    · rw [slot_set_ne _ hip] at hi hx
      exact Or.inr ⟨i, hip, hi, hx⟩
  · rintro (hx | ⟨i, hip, hi, hx⟩)
    · exact ⟨p, by rw [slot_set_self _ hp]; exact he, by rw [slot_set_self _ hp]; exact hx.symm⟩
    · exact ⟨i, by rw [slot_set_ne _ hip]; exact hi, by rw [slot_set_ne _ hip]; exact hx⟩

theorem holds_set_free {a : List array_element} {p : Nat} {e : array_element}
    (he : e.distance = -1) (x : Option Nat) :
    holds (a.set p e) x ↔ holds_except a p x := by
  constructor
  · rintro ⟨i, hi, hx⟩
    by_cases hip : i = p
    · exfalso
      rw [hip, slot_set] at hi
      by_cases hp : p < a.length
      · simp only [hp, and_self, if_true] at hi; exact hi he
      · simp only [hp, and_false, if_false] at hi
        exact hp (lt_of_slot_distance hi)
    · rw [slot_set_ne _ hip] at hi hx
      exact ⟨i, hip, hi, hx⟩
  · rintro ⟨i, hip, hi, hx⟩
    exact ⟨i, by rw [slot_set_ne _ hip]; exact hi, by rw [slot_set_ne _ hip]; exact hx⟩

theorem holds_of_occupied {a : List array_element} {p : Nat}
    (ho : (slot a p).distance ≠ -1) (x : Option Nat) :
    holds a x ↔ (x = (slot a p).iter ∨ holds_except a p x) := by
  constructor
  · rintro ⟨i, hi, hx⟩
    by_cases hip : i = p
    · rw [hip] at hx; exact Or.inl hx.symm
    · exact Or.inr ⟨i, hip, hi, hx⟩
  · rintro (hx | ⟨i, _, hi, hx⟩)
    · exact ⟨p, ho, hx.symm⟩
    · exact ⟨i, hi, hx⟩

theorem holds_of_free {a : List array_element} {p : Nat}
    (hf : (slot a p).distance = -1) (x : Option Nat) :
    holds a x ↔ holds_except a p x := by
  constructor
  · rintro ⟨i, hi, hx⟩
    by_cases hip : i = p
    · rw [hip] at hi; exact absurd hf hi
    · exact ⟨i, hip, hi, hx⟩
  · rintro ⟨i, _, hi, hx⟩
    exact ⟨i, hi, hx⟩

/-- The displacement walk ends at the first free slot and leaves a well-formed
table that holds the carried element in addition to the former content. -/
theorem insert_walk_spec {h : K → Nat} {R : List (Nat × K)} :
    ∀ (r fuel : Nat) (a : List array_element) (pos : Nat) (cd : Int) (c : Option Nat),
      WalkState h R a pos cd c → r < fuel →
      (∀ t, t < r → (slot a ((pos + t) % a.length)).distance ≠ -1) →
      (slot a ((pos + r) % a.length)).distance = -1 →
      cd + r < (a.length : Int) →
      ∃ a', insert_walk fuel a pos cd c = .ok a' ∧ a'.length = a.length ∧
        TableCore h R a' ∧ (∀ x, holds a' x ↔ (x = c ∨ holds a x)) ∧
        occupied_count a' = occupied_count a + 1 := by
  intro r
  induction r with
  | zero =>
    intro fuel a pos cd c w hfuel _ hfree _
    obtain ⟨f, rfl⟩ : ∃ f, fuel = f + 1 := ⟨fuel - 1, by omega⟩
    have hn := w.pos_lt
    rw [Nat.add_zero, Nat.mod_eq_of_lt hn] at hfree
    have hcd : (0 : Int) ≤ cd := by
      obtain ⟨_, _, _, _, h0, _, _⟩ := w.carry
      exact h0
    refine ⟨a.set pos ⟨c, cd⟩, ?_, List.length_set _ _ _, walk_place w hfree, ?_, ?_⟩
    · rw [insert_walk, subscript_of_lt hn]
      simp only [hfree, ne_eq, not_true_eq_false, if_false]
    · intro x
      rw [holds_set hn (by simp only; omega), holds_of_free hfree]
    · have hc := occupied_count_set (a := a) ⟨c, cd⟩ hn
      have h1 : is_occupied (slot a pos) = false := by simp [is_occupied, hfree]
      have h2 : is_occupied (⟨c, cd⟩ : array_element) = true := by
        simp only [is_occupied, decide_eq_true_eq]; omega
      rw [h1, h2] at hc
      simpa using hc
  | succ r ih =>
    intro fuel a pos cd c w hfuel hrun hfree hb
    obtain ⟨f, rfl⟩ : ∃ f, fuel = f + 1 := ⟨fuel - 1, by omega⟩
    have hn := w.pos_lt
    have hocc : (slot a pos).distance ≠ -1 := by
      have := hrun 0 (by omega)
      rwa [Nat.add_zero, Nat.mod_eq_of_lt hn] at this
    have hd0 : (0 : Int) ≤ (slot a pos).distance := by
      obtain ⟨_, _, _, _, h0, _, _⟩ := w.core.exact pos hocc
      exact h0
    have hcd : (0 : Int) ≤ cd := by
      obtain ⟨_, _, _, _, h0, _, _⟩ := w.carry
      exact h0
    have hshift : ∀ t, ((pos + 1) % a.length + t) % a.length = (pos + (t + 1)) % a.length := by
      intro t
      rw [mod_add_shift]
      congr 1
      omega
    by_cases hlt : (slot a pos).distance < cd
    · have w1 := walk_swap w hocc hlt
      have hlen : (a.set pos ⟨c, cd⟩).length = a.length := List.length_set _ _ _
      have hoccs : ∀ i, (slot (a.set pos ⟨c, cd⟩) i).distance ≠ -1 ↔ (slot a i).distance ≠ -1 := by
        intro i
        by_cases hip : i = pos
        · rw [hip, slot_set_self _ hn]
          simp only
          constructor
          · intro _; exact hocc
          · intro _; omega
        · rw [slot_set_ne _ hip]
      obtain ⟨a', hrun', hlen', hcore', hholds', hcount'⟩ :=
        ih f (a.set pos ⟨c, cd⟩) ((pos + 1) % a.length) ((slot a pos).distance + 1)
          (slot a pos).iter w1 (by omega)
          (by
            intro t ht
            rw [hlen, hshift, hoccs]
            exact hrun (t + 1) (by omega))
          (by
            rw [hlen, hshift]
            by_contra hne
            exact ((hoccs _).mp hne) hfree)
          (by rw [hlen]; push_cast at hb ⊢; omega)
      refine ⟨a', ?_, by rw [hlen', hlen], ?_, ?_, ?_⟩
      · rw [insert_walk, subscript_of_lt hn]
        simp only [hocc, ne_eq, not_false_eq_true, if_true, hlt]
        exact hrun'
      · exact hcore'
      · intro x
        rw [hholds', holds_set hn (by simp only; omega), holds_of_occupied hocc]
        simp only
        tauto
      · rw [hcount']
        have hc := occupied_count_set (a := a) ⟨c, cd⟩ hn
        have h1 : is_occupied (slot a pos) = true := by
          simp only [is_occupied, decide_eq_true_eq]; exact hocc
        have h2 : is_occupied (⟨c, cd⟩ : array_element) = true := by
          simp only [is_occupied, decide_eq_true_eq]; omega
        rw [h1, h2] at hc
        simp only [if_true] at hc
        omega
    · have w1 := walk_skip w hocc hlt (by push_cast at hb ⊢; omega)
      obtain ⟨a', hrun', hlen', hcore', hholds', hcount'⟩ :=
        ih f a ((pos + 1) % a.length) (cd + 1) c w1 (by omega)
          (by
            intro t ht
            rw [hshift]
            exact hrun (t + 1) (by omega))
          (by rw [hshift]; exact hfree)
          (by push_cast at hb ⊢; omega)
      refine ⟨a', ?_, hlen', hcore', hholds', hcount'⟩
      rw [insert_walk, subscript_of_lt hn]
      simp only [hocc, ne_eq, not_false_eq_true, if_true, hlt, if_false]
      exact hrun'

theorem slot_exact_pred {h : K → Nat} {R : List (Nat × K)} {n c : Nat} {e : array_element}
    (hc : c < n) (he : slot_exact h R n ((c + 1) % n) e) (hpos : 0 < e.distance) :
    slot_exact h R n c ⟨e.iter, e.distance - 1⟩ := by
  obtain ⟨r, k, hmem, hit, _, hlt, hp⟩ := he
  refine ⟨r, k, hmem, hit, by simp only; omega, by simp only; omega, ?_⟩
  simp only
  have h1 : e.distance.toNat = (e.distance - 1).toNat + 1 := by omega
  rw [h1, ← Nat.add_assoc] at hp
  have := mod_pred_of_succ hc hp
  exact this

theorem shift_step {h : K → Nat} {R : List (Nat × K)} {a : List array_element} {cur : Nat}
    (s : ShiftState h R a cur) (hpos : 0 < (slot a ((cur + 1) % a.length)).distance) :
    ShiftState h R
      (a.set cur ⟨(slot a ((cur + 1) % a.length)).iter,
        (slot a ((cur + 1) % a.length)).distance - 1⟩)
      ((cur + 1) % a.length) := by
  have hn := s.cur_lt
  have hne : (cur + 1) % a.length ≠ cur := succ_mod_ne s.two hn
  have hnl : (cur + 1) % a.length < a.length := Nat.mod_lt _ (by omega)
  have hnocc : (slot a ((cur + 1) % a.length)).distance ≠ -1 := by omega
  refine ⟨?_, ?_, ?_, ?_, ?_, ?_⟩
  · rw [List.length_set]; exact hnl
  · rw [List.length_set]; exact s.two
  · rw [slot_set_ne _ hne]; exact hnocc
  · intro i hi hocc
    rw [List.length_set]
    by_cases hic : i = cur
    · rw [hic, slot_set_self _ hn]
      exact slot_exact_pred hn (s.exact _ hne hnocc) hpos
    · rw [slot_set_ne _ hic] at hocc ⊢
      exact s.exact i hic hocc
  · intro j hj hs
    rw [List.length_set] at hj hs ⊢
    by_cases hjc : j = cur
    · rw [hjc, slot_set_ne _ hne, slot_set_self _ hn]
      simp only
      constructor <;> omega
    · rw [slot_set_ne _ hjc]
      by_cases hsc : (j + 1) % a.length = cur
      · rw [hsc, slot_set_self _ hn] at hs ⊢
        simp only at hs ⊢
        have h1 := s.ordered cur hn hpos
        have h2 := s.ordered j hj (by rw [hsc]; omega)
        rw [hsc] at h2
        constructor
        · exact h2.1
        · omega
      · rw [slot_set_ne _ hsc] at hs ⊢
        exact s.ordered j hj hs
  · intro i j hi hj hio hjo hij
    have key : ∀ u v, u ≠ (cur + 1) % a.length → v ≠ (cur + 1) % a.length → u = cur →
        v ≠ cur → (slot a v).distance ≠ -1 →
        (slot a ((cur + 1) % a.length)).iter = (slot a v).iter → False := by
      intro u v _ hv _ hvc hvo hiter
      exact hv (s.inj v _ hvc hne hvo hnocc hiter.symm)
    by_cases hic : i = cur
    · by_cases hjc : j = cur
      · rw [hic, hjc]
      · exfalso
        rw [slot_set_ne _ hjc] at hjo hij
        rw [hic, slot_set_self _ hn] at hij
        exact key i j hi hj hic hjc hjo hij
    · by_cases hjc : j = cur
      · exfalso
        rw [slot_set_ne _ hic] at hio hij
        rw [hjc, slot_set_self _ hn] at hij
        exact key j i hj hi hjc hic hio hij.symm
      · rw [slot_set_ne _ hic] at hio hij
        rw [slot_set_ne _ hjc] at hjo hij
        exact s.inj i j hic hjc hio hjo hij

theorem shift_stop {h : K → Nat} {R : List (Nat × K)} {a : List array_element} {cur : Nat}
    (s : ShiftState h R a cur) (hstop : ¬ 0 < (slot a ((cur + 1) % a.length)).distance)
    (x : Option Nat) :
    TableCore h R (a.set cur ⟨x, -1⟩) := by
  have hn := s.cur_lt
  have hne : (cur + 1) % a.length ≠ cur := succ_mod_ne s.two hn
  have hfree : ∀ i, (slot (a.set cur ⟨x, -1⟩) i).distance ≠ -1 →
      i ≠ cur ∧ (slot a i).distance ≠ -1 := by
    intro i hi
    by_cases hic : i = cur
    · rw [hic, slot_set_self _ hn] at hi
      exact absurd rfl hi
    · rw [slot_set_ne _ hic] at hi
      exact ⟨hic, hi⟩
  refine ⟨?_, ?_, ?_⟩
  · intro i hi
    obtain ⟨hic, hio⟩ := hfree i hi
    rw [List.length_set, slot_set_ne _ hic]
    exact s.exact i hic hio
  · intro j hj hs
    rw [List.length_set] at hj hs ⊢
    have hsc : (j + 1) % a.length ≠ cur := by
      intro hsc
      rw [hsc, slot_set_self _ hn] at hs
      simp only at hs
      omega
    rw [slot_set_ne _ hsc] at hs ⊢
    have hjc : j ≠ cur := by
      intro hjc
      rw [hjc] at hs
      exact hstop hs
    rw [slot_set_ne _ hjc]
    exact s.ordered j hj hs
  · intro i j hi hj hij
    obtain ⟨hic, hio⟩ := hfree i hi
    obtain ⟨hjc, hjo⟩ := hfree j hj
    rw [slot_set_ne _ hic, slot_set_ne _ hjc] at hij
    exact s.inj i j hic hjc hio hjo hij

/-- The backward shift ends at the first slot that is free or at its home, and
leaves a well-formed table holding the former content of the slots other than the
vacated one. -/
theorem erase_shift_spec {h : K → Nat} {R : List (Nat × K)} :
    ∀ (r fuel : Nat) (a : List array_element) (cur : Nat),
      ShiftState h R a cur → r < fuel →
      (slot a ((cur + (r + 1)) % a.length)).distance = -1 →
      ∃ a', erase_shift fuel a cur ((cur + 1) % a.length) = .ok a' ∧
        a'.length = a.length ∧ TableCore h R a' ∧
        (∀ x, holds a' x ↔ holds_except a cur x) ∧
        occupied_count a' + 1 = occupied_count a := by
  intro r
  induction r with
  | zero =>
    intro fuel a cur s hfuel hfree
    obtain ⟨f, rfl⟩ : ∃ f, fuel = f + 1 := ⟨fuel - 1, by omega⟩
    have hn := s.cur_lt
    have hnl : (cur + 1) % a.length < a.length := Nat.mod_lt _ (by omega)
    have hstop : ¬ 0 < (slot a ((cur + 1) % a.length)).distance := by
      rw [Nat.zero_add] at hfree; omega
    refine ⟨a.set cur ⟨(slot a cur).iter, -1⟩, ?_, List.length_set _ _ _,
      shift_stop s hstop _, ?_, ?_⟩
    · rw [erase_shift, subscript_of_lt hnl]
      simp only [gt_iff_lt, hstop, if_false, subscript_of_lt hn]
    · intro x
      exact holds_set_free rfl x
    · have hc := occupied_count_set (a := a) ⟨(slot a cur).iter, -1⟩ hn
      have h1 : is_occupied (slot a cur) = true := by
        simp only [is_occupied, decide_eq_true_eq]; exact s.hole
      have h2 : is_occupied (⟨(slot a cur).iter, -1⟩ : array_element) = false := by
        simp [is_occupied]
      rw [h1, h2] at hc
      simpa using hc
  | succ r ih =>
    intro fuel a cur s hfuel hfree
    obtain ⟨f, rfl⟩ : ∃ f, fuel = f + 1 := ⟨fuel - 1, by omega⟩
    have hn := s.cur_lt
    have hnl : (cur + 1) % a.length < a.length := Nat.mod_lt _ (by omega)
    have hne : (cur + 1) % a.length ≠ cur := succ_mod_ne s.two hn
    by_cases hpos : 0 < (slot a ((cur + 1) % a.length)).distance
    · have s1 := shift_step s hpos
      have hlen : (a.set cur ⟨(slot a ((cur + 1) % a.length)).iter,
          (slot a ((cur + 1) % a.length)).distance - 1⟩).length = a.length :=
        List.length_set _ _ _
      have hidx : ((cur + 1) % a.length + (r + 1)) % a.length
          = (cur + (r + 1 + 1)) % a.length := by
        rw [mod_add_shift]; congr 1; omega
      have hcne : (cur + (r + 1 + 1)) % a.length ≠ cur := by
        intro hc
        rw [hc] at hfree
        exact s.hole hfree
      obtain ⟨a', hrun', hlen', hcore', hholds', hcount'⟩ :=
        ih f _ ((cur + 1) % a.length) s1 (by omega)
          (by rw [hlen, hidx, slot_set_ne _ hcne]; exact hfree)
      refine ⟨a', ?_, by rw [hlen', hlen], hcore', ?_, ?_⟩
      · rw [erase_shift, subscript_of_lt hnl]
        simp only [gt_iff_lt, hpos, if_true]
        rw [hlen] at hrun'
        exact hrun'
      · intro x
        rw [hholds']
        constructor
        · rintro ⟨i, hin, hio, hix⟩
          by_cases hic : i = cur
          · rw [hic, slot_set_self _ hn] at hix
            exact ⟨(cur + 1) % a.length, hne, by omega, hix⟩
          · rw [slot_set_ne _ hic] at hio hix
            exact ⟨i, hic, hio, hix⟩
        · rintro ⟨i, hic, hio, hix⟩
          by_cases hin : i = (cur + 1) % a.length
          · refine ⟨cur, hne.symm, ?_, ?_⟩
            · rw [slot_set_self _ hn]; simp only; omega
            · rw [slot_set_self _ hn]; simp only; rw [← hin]; exact hix
          · exact ⟨i, hin, by rw [slot_set_ne _ hic]; exact hio,
              by rw [slot_set_ne _ hic]; exact hix⟩
      · rw [hcount']
        have hc := occupied_count_set (a := a)
          ⟨(slot a ((cur + 1) % a.length)).iter, (slot a ((cur + 1) % a.length)).distance - 1⟩ hn
        have h1 : is_occupied (slot a cur) = true := by
          simp only [is_occupied, decide_eq_true_eq]; exact s.hole
        have h2 : is_occupied (⟨(slot a ((cur + 1) % a.length)).iter,
            (slot a ((cur + 1) % a.length)).distance - 1⟩ : array_element) = true := by
          simp only [is_occupied, decide_eq_true_eq]; omega
        rw [h1, h2] at hc
        simp only [if_true] at hc
        omega
    · refine ⟨a.set cur ⟨(slot a cur).iter, -1⟩, ?_, List.length_set _ _ _,
        shift_stop s hpos _, ?_, ?_⟩
      · rw [erase_shift, subscript_of_lt hnl]
        simp only [gt_iff_lt, hpos, if_false, subscript_of_lt hn]
      · intro x
        exact holds_set_free rfl x
      · have hc := occupied_count_set (a := a) ⟨(slot a cur).iter, -1⟩ hn
        have h1 : is_occupied (slot a cur) = true := by
          simp only [is_occupied, decide_eq_true_eq]; exact s.hole
        have h2 : is_occupied (⟨(slot a cur).iter, -1⟩ : array_element) = false := by
          simp [is_occupied]
        rw [h1, h2] at hc
        simpa using hc

end Table

/-! ## Well-formed maps -/

section WellFormed

variable {K V : Type} [DecidableEq K]

theorem mem_node_index {L : List (list_node K V)} {r : Nat} {k : K} :
    (r, k) ∈ node_index L ↔ ∃ nd, nd ∈ L ∧ nd.ref = r ∧ nd.first = k := by
  unfold node_index
  rw [List.mem_map]
  constructor
  · rintro ⟨nd, hnd, heq⟩
    simp only [Prod.mk.injEq] at heq
    exact ⟨nd, hnd, heq.1, heq.2⟩
  · rintro ⟨nd, hnd, h1, h2⟩
    exact ⟨nd, hnd, by rw [h1, h2]⟩

theorem deref_of_mem {L : List (list_node K V)}
    (hnd : (L.map (fun nd => nd.ref)).Nodup) {nd : list_node K V} (hmem : nd ∈ L) :
    deref L (some nd.ref) = .ok nd := by
  induction L with
  | nil => cases hmem
  | cons hd tl ih =>
    rw [List.map_cons, List.nodup_cons] at hnd
    by_cases hh : hd.ref = nd.ref
    · have : nd = hd := by
        rcases List.mem_cons.mp hmem with h1 | h1
        · exact h1
        · exfalso
          apply hnd.1
          rw [hh]
          exact List.mem_map.mpr ⟨nd, h1, rfl⟩
      subst this
      simp [deref, List.find?_cons]
    · have hmem2 : nd ∈ tl := by
        rcases List.mem_cons.mp hmem with h1 | h1
        · exact absurd (by rw [h1]) hh
        · exact h1
      have := ih hnd.2 hmem2
      simp only [deref, List.find?_cons, hh, decide_False] at this ⊢
      exact this

theorem deref_mem {L : List (list_node K V)} {x : Option Nat} {nd : list_node K V}
    (h : deref L x = .ok nd) : nd ∈ L ∧ x = some nd.ref := by
  cases x with
  | none => simp [deref] at h
  | some r =>
    simp only [deref] at h
    cases hf : L.find? (fun nd => decide (nd.ref = r)) with
    | none => rw [hf] at h; simp at h
    | some nd2 =>
      rw [hf] at h
      simp only [Except.ok.injEq] at h
      subst h
      have h1 := List.mem_of_find?_eq_some hf
      have h2 := List.find?_some hf
      simp only [decide_eq_true_eq] at h2
      exact ⟨h1, by rw [h2]⟩

theorem node_eq_of_ref {L : List (list_node K V)}
    (hnd : (L.map (fun nd => nd.ref)).Nodup) {x y : list_node K V}
    (hx : x ∈ L) (hy : y ∈ L) (h : x.ref = y.ref) : x = y :=
  List.inj_on_of_nodup_map hnd hx hy h

theorem node_eq_of_first {L : List (list_node K V)}
    (hnd : (L.map (fun nd => nd.first)).Nodup) {x y : list_node K V}
    (hx : x ∈ L) (hy : y ∈ L) (h : x.first = y.first) : x = y :=
  List.inj_on_of_nodup_map hnd hx hy h

/-- An occupied slot of a well-formed map designates a live node, and its stored
distance is the exact distance of that node's key from its home slot. -/
theorem Wf.slot_node {m : HashMap K V} (w : Wf m) {i : Nat}
    (hocc : (slot m.array_ i).distance ≠ -1) :
    ∃ nd, nd ∈ m.elements_list_ ∧ (slot m.array_ i).iter = some nd.ref ∧
      deref m.elements_list_ (slot m.array_ i).iter = .ok nd ∧
      0 ≤ (slot m.array_ i).distance ∧ (slot m.array_ i).distance < (m.array_.length : Int) ∧
      (m.hasher_ nd.first + (slot m.array_ i).distance.toNat) % m.array_.length = i := by
  obtain ⟨r, k, hmem, hit, h0, hlt, hpos⟩ := w.table.core.exact i hocc
  obtain ⟨nd, hnd, hr, hk⟩ := mem_node_index.mp hmem
  refine ⟨nd, hnd, by rw [hit, hr], ?_, h0, hlt, by rw [hk]; exact hpos⟩
  rw [hit, ← hr]
  exact deref_of_mem w.refs_nodup hnd

/-- Every node of a well-formed map is designated by an occupied slot. -/
theorem Wf.node_slot {m : HashMap K V} (w : Wf m) {nd : list_node K V}
    (hnd : nd ∈ m.elements_list_) :
    ∃ i, (slot m.array_ i).distance ≠ -1 ∧ (slot m.array_ i).iter = some nd.ref :=
  w.table.surj nd.ref nd.first (mem_node_index.mpr ⟨nd, hnd, rfl, rfl⟩)

/-- Probe-chain contiguity: from the home slot of a stored key up to its slot,
every slot is occupied (and the distances grow by at most one per step). -/
theorem TableCore.chain {h : K → Nat} {R : List (Nat × K)} {a : List array_element}
    (c : TableCore h R a) (home d : Nat) :
    ∀ u, u ≤ d → (slot a ((home + d) % a.length)).distance ≠ -1 →
      (d : Int) ≤ (slot a ((home + d) % a.length)).distance →
      (slot a ((home + (d - u)) % a.length)).distance ≠ -1 ∧
        ((d - u : Nat) : Int) ≤ (slot a ((home + (d - u)) % a.length)).distance := by
  intro u
  induction u with
  | zero => intro _ h1 h2; exact ⟨h1, h2⟩
  | succ u ih =>
    intro hu h1 h2
    obtain ⟨_, ih2⟩ := ih (by omega) h1 h2
    have hn : 0 < a.length := by
      have := lt_of_slot_distance h1
      omega
    have hj : (home + (d - (u + 1))) % a.length < a.length := Nat.mod_lt _ hn
    have hs : ((home + (d - (u + 1))) % a.length + 1) % a.length
        = (home + (d - u)) % a.length := by
      rw [mod_succ_shift]; congr 1; omega
    have hord := c.ordered _ hj (by rw [hs]; omega)
    rw [hs] at hord
    constructor
    · exact hord.1
    · omega

/-! ## The probe loops -/

/-- The existence check of `insert` is the loop of `get_key_position`, reporting
only whether a position was found. -/
theorem insert_scan_eq (m : HashMap K V) (key : K) :
    ∀ fuel p, insert_scan m key fuel p =
      match get_key_position_loop m key fuel p with
      | .error f => .error f
      | .ok pos => .ok (decide (pos ≠ -1)) := by
  intro fuel
  induction fuel with
  | zero => intro p; rfl
  | succ fuel ih =>
    intro p
    rw [insert_scan, get_key_position_loop]
    cases subscript m.array_ p with
    | error f => rfl
    | ok e =>
      simp only
      by_cases hocc : e.distance ≠ -1
      · simp only [hocc, ne_eq, not_false_eq_true, if_true]
        cases deref m.elements_list_ e.iter with
        | error f => rfl
        | ok nd =>
          simp only
          by_cases hk : nd.first = key
          · simp only [hk, if_true]
            have : ((p : Int) ≠ -1) := by omega
            simp [this]
          · simp only [hk, if_false]
            exact ih _
      · simp only [hocc, if_false]
        simp

theorem loop_hit (m : HashMap K V) (key : K) :
    ∀ (r fuel p : Nat), p < m.array_.length → r < fuel →
      (∀ t, t < r → ∃ nd, (slot m.array_ ((p + t) % m.array_.length)).distance ≠ -1 ∧
        deref m.elements_list_ (slot m.array_ ((p + t) % m.array_.length)).iter = .ok nd ∧
        nd.first ≠ key) →
      (∃ nd, (slot m.array_ ((p + r) % m.array_.length)).distance ≠ -1 ∧
        deref m.elements_list_ (slot m.array_ ((p + r) % m.array_.length)).iter = .ok nd ∧
        nd.first = key) →
      get_key_position_loop m key fuel p = .ok (((p + r) % m.array_.length : Nat) : Int) := by
  intro r
  induction r with
  | zero =>
    intro fuel p hp hfuel _ hend
    obtain ⟨f, rfl⟩ : ∃ f, fuel = f + 1 := ⟨fuel - 1, by omega⟩
    have hz : (p + 0) % m.array_.length = p := by rw [Nat.add_zero, Nat.mod_eq_of_lt hp]
    rw [hz] at hend ⊢
    obtain ⟨nd, hocc, hd, hk⟩ := hend
    rw [get_key_position_loop, subscript_of_lt hp]
    simp only [hocc, ne_eq, not_false_eq_true, if_true, hd, hk]
  | succ r ih =>
    intro fuel p hp hfuel hrun hend
    obtain ⟨f, rfl⟩ : ∃ f, fuel = f + 1 := ⟨fuel - 1, by omega⟩
    obtain ⟨nd, hocc, hd, hk⟩ := hrun 0 (by omega)
    rw [Nat.add_zero, Nat.mod_eq_of_lt hp] at hocc hd
    have hshift : ∀ t, ((p + 1) % m.array_.length + t) % m.array_.length
        = (p + (t + 1)) % m.array_.length := by
      intro t
      rw [mod_add_shift]; congr 1; omega
    rw [get_key_position_loop, subscript_of_lt hp]
    simp only [hocc, ne_eq, not_false_eq_true, if_true, hd, hk, if_false]
    rw [ih f ((p + 1) % m.array_.length) (Nat.mod_lt _ (by omega)) (by omega)
      (by intro t ht; rw [hshift]; exact hrun (t + 1) (by omega))
      (by rw [hshift]; exact hend), hshift]

theorem loop_miss (m : HashMap K V) (key : K) :
    ∀ (r fuel p : Nat), p < m.array_.length → r < fuel →
      (∀ t, t < r → ∃ nd, (slot m.array_ ((p + t) % m.array_.length)).distance ≠ -1 ∧
        deref m.elements_list_ (slot m.array_ ((p + t) % m.array_.length)).iter = .ok nd ∧
        nd.first ≠ key) →
      (slot m.array_ ((p + r) % m.array_.length)).distance = -1 →
      get_key_position_loop m key fuel p = .ok (-1) := by
  intro r
  induction r with
  | zero =>
    intro fuel p hp hfuel _ hend
    obtain ⟨f, rfl⟩ : ∃ f, fuel = f + 1 := ⟨fuel - 1, by omega⟩
    rw [Nat.add_zero, Nat.mod_eq_of_lt hp] at hend
    rw [get_key_position_loop, subscript_of_lt hp]
    simp only [hend, ne_eq, not_true_eq_false, if_false]
  | succ r ih =>
    intro fuel p hp hfuel hrun hend
    obtain ⟨f, rfl⟩ : ∃ f, fuel = f + 1 := ⟨fuel - 1, by omega⟩
    obtain ⟨nd, hocc, hd, hk⟩ := hrun 0 (by omega)
    rw [Nat.add_zero, Nat.mod_eq_of_lt hp] at hocc hd
    have hshift : ∀ t, ((p + 1) % m.array_.length + t) % m.array_.length
        = (p + (t + 1)) % m.array_.length := by
      intro t
      rw [mod_add_shift]; congr 1; omega
    rw [get_key_position_loop, subscript_of_lt hp]
    simp only [hocc, ne_eq, not_false_eq_true, if_true, hd, hk, if_false]
    exact ih f ((p + 1) % m.array_.length) (Nat.mod_lt _ (by omega)) (by omega)
      (by intro t ht; rw [hshift]; exact hrun (t + 1) (by omega))
      (by rw [hshift]; exact hend)

theorem Wf.occupied_count_eq {m : HashMap K V} (w : Wf m) :
    occupied_count m.array_ = m.size_ := by
  rw [w.table.count, w.size_eq]
  unfold node_index
  rw [List.length_map]

/-- The lookup loop of a well-formed map with a free slot, started at the home
slot of the key of a stored node, stops at the occupied slot that designates
this node. -/
theorem Wf.lookup_present {m : HashMap K V} (w : Wf m)
    {nd : list_node K V} (hnd : nd ∈ m.elements_list_) :
    ∃ pos : Nat,
      get_key_position_loop m nd.first m.array_.length
        (m.hasher_ nd.first % m.array_.length) = .ok (pos : Int) ∧
      pos < m.array_.length ∧ (slot m.array_ pos).distance ≠ -1 ∧
      (slot m.array_ pos).iter = some nd.ref := by
  obtain ⟨i, hocc, hit⟩ := w.node_slot hnd
  obtain ⟨nd1, hnd1, hit1, hderef, h0, hlt, hpos⟩ := w.slot_node hocc
  have hrefs : nd1.ref = nd.ref := by
    rw [hit] at hit1
    exact (Option.some.inj hit1).symm
  have hsame : nd1 = nd := node_eq_of_ref w.refs_nodup hnd1 hnd hrefs
  subst hsame
  have hn : 0 < m.array_.length := by omega
  have hchain : ∀ t, t ≤ (slot m.array_ i).distance.toNat →
      (slot m.array_ ((m.hasher_ nd1.first + t) % m.array_.length)).distance ≠ -1 := by
    intro t ht
    have := w.table.core.chain (m.hasher_ nd1.first)
      (slot m.array_ i).distance.toNat ((slot m.array_ i).distance.toNat - t)
      (by omega) (by rw [hpos]; exact hocc) (by rw [hpos]; omega)
    have hsub : (slot m.array_ i).distance.toNat - ((slot m.array_ i).distance.toNat - t) = t := by
      omega
    rw [hsub] at this
    exact this.1
  have hex : ∃ t, ∃ nd2,
      deref m.elements_list_
        (slot m.array_ ((m.hasher_ nd1.first + t) % m.array_.length)).iter = .ok nd2 ∧
      nd2.first = nd1.first := ⟨_, nd1, by rw [hpos]; exact hderef, rfl⟩
  classical
  have hmin : Nat.find hex ≤ (slot m.array_ i).distance.toNat :=
    Nat.find_min' hex ⟨nd1, by rw [hpos]; exact hderef, rfl⟩
  obtain ⟨nd2, hd2, hk2⟩ := Nat.find_spec hex
  have hocc2 := hchain _ hmin
  have hp : m.hasher_ nd1.first % m.array_.length < m.array_.length := Nat.mod_lt _ hn
  have hloop := loop_hit m nd1.first (Nat.find hex) m.array_.length
    (m.hasher_ nd1.first % m.array_.length) hp (by omega)
    (by
      intro t ht
      rw [mod_add_shift]
      have hoc := hchain t (by omega)
      obtain ⟨nd3, _, _, hd3, _⟩ := w.slot_node hoc
      refine ⟨nd3, hoc, hd3, ?_⟩
      intro hk3
      exact Nat.find_min hex ht ⟨nd3, hd3, hk3⟩)
    (by
      rw [mod_add_shift]
      exact ⟨nd2, hocc2, hd2, hk2⟩)
  rw [mod_add_shift] at hloop
  refine ⟨_, hloop, Nat.mod_lt _ hn, hocc2, ?_⟩
  obtain ⟨hmem2, hiter2⟩ := deref_mem hd2
  have : nd2 = nd1 := node_eq_of_first w.keys_nodup hmem2 hnd hk2
  rw [hiter2, this]

/-- The lookup loop of a well-formed map with a free slot stops at a free slot
when no node has the key. -/
theorem Wf.lookup_absent {m : HashMap K V} (w : Wf m) (hfree : m.size_ < m.array_.length)
    {key : K} (habs : ∀ nd, nd ∈ m.elements_list_ → nd.first ≠ key) :
    get_key_position_loop m key m.array_.length (m.hasher_ key % m.array_.length)
      = .ok (-1) := by
  have hn : 0 < m.array_.length := by omega
  have hp : m.hasher_ key % m.array_.length < m.array_.length := Nat.mod_lt _ hn
  have hcount : occupied_count m.array_ < m.array_.length := by
    rw [w.occupied_count_eq]; exact hfree
  obtain ⟨r, hr, hend, hrun⟩ := first_free_from hcount hp
  exact loop_miss m key r m.array_.length _ hp hr
    (by
      intro t ht
      have hoc := hrun t ht
      obtain ⟨nd3, hm3, _, hd3, _⟩ := w.slot_node hoc
      exact ⟨nd3, hoc, hd3, habs nd3 hm3⟩)
    hend

theorem Inv.free_slot {m : HashMap K V} (i : Inv m) (h : 0 < m.size_) :
    m.size_ < m.array_.length := by
  have := i.load
  omega

/-- `get_key_position` on a stored key. -/
theorem Inv.get_key_position_present {m : HashMap K V} (i : Inv m)
    {nd : list_node K V} (hnd : nd ∈ m.elements_list_) :
    ∃ pos : Nat, m.get_key_position nd.first = .ok (pos : Int) ∧
      pos < m.array_.length ∧ (slot m.array_ pos).distance ≠ -1 ∧
      (slot m.array_ pos).iter = some nd.ref := by
  have hsz : 0 < m.size_ := by
    rw [i.wf.size_eq]
    exact List.length_pos_of_mem hnd
  have hfree := i.free_slot hsz
  obtain ⟨pos, hloop, h1, h2, h3⟩ := i.wf.lookup_present hnd
  refine ⟨pos, ?_, h1, h2, h3⟩
  unfold HashMap.get_key_position
  have hne : ¬ m.array_.length = 0 := by omega
  simp only [gt_iff_lt, hsz, if_true, hne, if_false]
  exact hloop

/-- `get_key_position` on a key that is not stored. -/
theorem Inv.get_key_position_absent {m : HashMap K V} (i : Inv m)
    {key : K} (habs : ∀ nd, nd ∈ m.elements_list_ → nd.first ≠ key) :
    m.get_key_position key = .ok (-1) := by
  unfold HashMap.get_key_position
  by_cases hsz : 0 < m.size_
  · have hfree := i.free_slot hsz
    have hne : ¬ m.array_.length = 0 := by omega
    simp only [gt_iff_lt, hsz, if_true, hne, if_false]
    exact i.wf.lookup_absent hfree habs
  · simp only [gt_iff_lt, hsz, if_false]

/-! ## `insert` -/

theorem TableCore.mono {h : K → Nat} {R R' : List (Nat × K)} {a : List array_element}
    (c : TableCore h R a) (hsub : ∀ x, x ∈ R → x ∈ R') : TableCore h R' a := by
  refine ⟨?_, c.ordered, c.inj⟩
  intro i hi
  obtain ⟨r, k, hmem, rest⟩ := c.exact i hi
  exact ⟨r, k, hsub _ hmem, rest⟩

theorem node_index_append (L : List (list_node K V)) (x : list_node K V) :
    node_index (L ++ [x]) = node_index L ++ [(x.ref, x.first)] := by
  simp [node_index]

/-- The body of `insert` on a key that is stored: nothing changes. -/
theorem insert_body_present {m : HashMap K V} (w : Wf m) {p : K × V}
    (hpres : ∃ nd, nd ∈ m.elements_list_ ∧ nd.first = p.1) :
    insert_body m p = .ok m := by
  obtain ⟨nd, hnd, hk⟩ := hpres
  obtain ⟨pos, hloop, hlt, _, _⟩ := w.lookup_present hnd
  have hne : ¬ m.array_.length = 0 := by omega
  unfold insert_body
  rw [if_neg hne, insert_scan_eq, ← hk, hloop]
  have : ((pos : Int) ≠ -1) := by omega
  simp [this]

/-- The body of `insert` on a key that is not stored, in a table with a free
slot: a node is appended to the list and the probe table stays well formed. -/
theorem insert_body_absent {m : HashMap K V} (w : Wf m) (hroom : m.size_ < m.array_.length)
    {p : K × V} (habs : ∀ nd, nd ∈ m.elements_list_ → nd.first ≠ p.1) :
    ∃ a, insert_body m p = .ok (inserted m p a) ∧ a.length = m.array_.length ∧
      Wf (inserted m p a) := by
  have hn : 0 < m.array_.length := by omega
  have hne : ¬ m.array_.length = 0 := by omega
  have hp : m.hasher_ p.1 % m.array_.length < m.array_.length := Nat.mod_lt _ hn
  have hcount : occupied_count m.array_ < m.array_.length := by
    rw [w.occupied_count_eq]; exact hroom
  have hsub : ∀ x, x ∈ node_index m.elements_list_ →
      x ∈ node_index (m.elements_list_ ++ [⟨m.next_ref_, p.1, p.2⟩]) := by
    intro x hx
    rw [node_index_append]
    exact List.mem_append_left _ hx
  have hnew : (m.next_ref_, p.1) ∈
      node_index (m.elements_list_ ++ [⟨m.next_ref_, p.1, p.2⟩]) := by
    rw [node_index_append]
    exact List.mem_append_right _ (List.mem_singleton.mpr rfl)
  have ws : WalkState m.hasher_ (node_index (m.elements_list_ ++ [⟨m.next_ref_, p.1, p.2⟩]))
      m.array_ (m.hasher_ p.1 % m.array_.length) 0 (some m.next_ref_) := by
    refine ⟨hp, w.table.core.mono hsub, ?_, ?_, ?_⟩
    · exact ⟨m.next_ref_, p.1, hnew, rfl, le_refl _, by simp only; omega, by simp⟩
    · intro i hi hc
      obtain ⟨nd, hnd, hit, _⟩ := w.slot_node hi
      rw [hit] at hc
      have := w.refs_lt nd hnd
      have h2 := Option.some.inj hc
      omega
    · intro h0
      exact absurd h0 (lt_irrefl _)
  obtain ⟨r, hr, hend, hrun⟩ := first_free_from hcount hp
  obtain ⟨a, hwalk, hlen, hcore, hholds, hcnt⟩ :=
    insert_walk_spec r m.array_.length m.array_ _ 0 (some m.next_ref_) ws hr hrun hend
      (by omega)
  refine ⟨a, ?_, hlen, ?_⟩
  · unfold insert_body
    rw [if_neg hne, insert_scan_eq, w.lookup_absent hroom habs]
    simp only [ne_eq, not_true_eq_false, decide_False, Bool.not_false, if_true, hwalk]
    rfl
  · refine ⟨?_, ?_, ?_, ?_, ⟨?_, ?_, ?_⟩⟩
    · simp [inserted, w.size_eq]
    · simp only [inserted, List.map_append, List.map_cons, List.map_nil]
      apply List.Nodup.append w.refs_nodup (List.nodup_singleton _)
      intro x hx hx2
      rw [List.mem_singleton] at hx2
      obtain ⟨nd, hnd, hndx⟩ := List.mem_map.mp hx
      have := w.refs_lt nd hnd
      omega
    · intro nd hnd
      simp only [inserted] at hnd ⊢
      rcases List.mem_append.mp hnd with h1 | h1
      · have := w.refs_lt nd h1; omega
      · rw [List.mem_singleton] at h1
        rw [h1]; simp
    · simp only [inserted, List.map_append, List.map_cons, List.map_nil]
      apply List.Nodup.append w.keys_nodup (List.nodup_singleton _)
      intro x hx hx2
      rw [List.mem_singleton] at hx2
      obtain ⟨nd, hnd, hndx⟩ := List.mem_map.mp hx
      exact habs nd hnd (by rw [hndx, hx2])
    · show TableCore m.hasher_
        (node_index (m.elements_list_ ++ [⟨m.next_ref_, p.1, p.2⟩])) a
      exact hcore
    · intro r k hrk
      show holds a (some r)
      rw [hholds]
      have hrk2 : (r, k) ∈ node_index (m.elements_list_ ++ [⟨m.next_ref_, p.1, p.2⟩]) := hrk
      rw [node_index_append] at hrk2
      rcases List.mem_append.mp hrk2 with h1 | h1
      · exact Or.inr (w.table.surj r k h1)
      · rw [List.mem_singleton] at h1
        simp only [Prod.mk.injEq] at h1
        exact Or.inl (by rw [h1.1])
    · show occupied_count a = (node_index (m.elements_list_ ++ [⟨m.next_ref_, p.1, p.2⟩])).length
      rw [hcnt, w.table.count, node_index_append, List.length_append]
      rfl

theorem needs_resize_iff (s n : Nat) : needs_resize s n = true ↔ 13 * n ≤ 20 * (s + 1) := by
  simp [needs_resize, LOAD_FACTOR_NUM, LOAD_FACTOR_DEN]

theorem needs_resize_false_iff (s n : Nat) :
    needs_resize s n = false ↔ 20 * (s + 1) < 13 * n := by
  rw [← Bool.not_eq_true, needs_resize_iff]
  omega

theorem ceil_load_bound (s : Nat) :
    20 * (s + 1) ≤ 13 * ceil_load s ∧ 13 * ceil_load s < 20 * (s + 1) + 13 := by
  unfold ceil_load LOAD_FACTOR_NUM LOAD_FACTOR_DEN
  omega

theorem new_capacity_bound (s n : Nat) : 20 * (s + 1) ≤ 13 * new_capacity s n := by
  have := ceil_load_bound s
  unfold new_capacity
  split <;> omega

/-- The test at the head of `insert`, with `LOAD_FACTOR` the rational `13/20`. -/
theorem needs_resize_rat (s n : Nat) :
    needs_resize s n = true ↔ (n : ℚ) * (13 / 20) ≤ ((s + 1 : Nat) : ℚ) := by
  rw [needs_resize_iff]
  constructor
  · intro h
    have h1 : ((13 * n : Nat) : ℚ) ≤ ((20 * (s + 1) : Nat) : ℚ) := by exact_mod_cast h
    push_cast at h1 ⊢
    linarith
  · intro h
    have h1 : ((13 * n : Nat) : ℚ) ≤ ((20 * (s + 1) : Nat) : ℚ) := by
      push_cast at h ⊢
      linarith
    exact_mod_cast h1

/-- The ceiling computed by `resize_map`, with `LOAD_FACTOR` the rational `13/20`. -/
theorem ceil_load_rat (s : Nat) :
    (ceil_load s : ℤ) = ⌈(((s + 1 : Nat) : ℚ)) / (13 / 20)⌉ := by
  obtain ⟨h1, h2⟩ := ceil_load_bound s
  symm
  rw [Int.ceil_eq_iff]
  have e1 : ((20 * (s + 1) : Nat) : ℚ) ≤ ((13 * ceil_load s : Nat) : ℚ) := by exact_mod_cast h1
  have e2 : ((13 * ceil_load s : Nat) : ℚ) < ((20 * (s + 1) + 13 : Nat) : ℚ) := by
    exact_mod_cast h2
  push_cast at e1 e2 ⊢
  constructor
  · rw [lt_div_iff₀ (by norm_num)]
    linarith
  · rw [div_le_iff₀ (by norm_num)]
    linarith

theorem iteration_inserted (m : HashMap K V) (p : K × V) (a : List array_element) :
    (inserted m p a).iteration = m.iteration ++ [p] := by
  simp [inserted, HashMap.iteration]

/-- Without a resize, `insert` is its body. -/
theorem insert_no_resize (d : Nat) {m : HashMap K V} (p : K × V)
    (h : needs_resize m.size_ m.array_.length = false) :
    HashMap.insert (d + 1) m p = insert_body m p := by
  rw [HashMap.insert, h]
  simp

/-- A run of `insert` calls on pairwise distinct keys that are not stored, in a
table large enough for all of them: no call resizes, the pairs are appended in
order. -/
theorem insert_run_no_resize (d : Nat) :
    ∀ (xs : List (list_node K V)) (acc : HashMap K V), Wf acc →
      (xs.map (fun nd => nd.first)).Nodup →
      (∀ x, x ∈ xs → ∀ nd, nd ∈ acc.elements_list_ → nd.first ≠ x.first) →
      20 * (acc.size_ + xs.length) < 13 * acc.array_.length →
      ∃ acc', for_each (fun acc nd => HashMap.insert (d + 1) acc (nd.first, nd.second)) xs acc
          = .ok acc' ∧
        Wf acc' ∧ acc'.array_.length = acc.array_.length ∧ acc'.hasher_ = acc.hasher_ ∧
        acc'.iteration = acc.iteration ++ xs.map (fun nd => (nd.first, nd.second)) := by
  intro xs
  induction xs with
  | nil =>
    intro acc w _ _ _
    exact ⟨acc, rfl, w, rfl, rfl, by simp⟩
  | cons x xs ih =>
    intro acc w hnd hdis hcap
    rw [List.map_cons, List.nodup_cons] at hnd
    rw [List.length_cons] at hcap
    have hnr : needs_resize acc.size_ acc.array_.length = false := by
      rw [needs_resize_false_iff]; omega
    obtain ⟨a, hbody, hlen, hw⟩ := insert_body_absent (p := (x.first, x.second)) w (by omega)
      (by intro nd hnd2; exact hdis x (List.mem_cons_self _ _) nd hnd2)
    obtain ⟨acc', hrun, hw', hlen', hh', hit'⟩ :=
      ih (inserted acc (x.first, x.second) a) hw hnd.2
        (by
          intro y hy nd hnd2
          simp only [inserted] at hnd2
          rcases List.mem_append.mp hnd2 with h1 | h1
          · exact hdis y (List.mem_cons_of_mem _ hy) nd h1
          · rw [List.mem_singleton] at h1
            rw [h1]
            simp only
            intro heq
            exact hnd.1 (List.mem_map.mpr ⟨y, hy, heq.symm⟩))
        (by
          simp only [inserted, hlen]
          omega)
    refine ⟨acc', ?_, hw', ?_, ?_, ?_⟩
    · rw [for_each, insert_no_resize d _ hnr, hbody]
      exact hrun
    · rw [hlen']; exact hlen
    · rw [hh']; rfl
    · rw [hit', iteration_inserted]
      simp

theorem keys_eq (m : HashMap K V) : m.keys = m.elements_list_.map (fun nd => nd.first) := by
  simp [HashMap.keys, HashMap.iteration]

theorem mem_keys_iff {m : HashMap K V} {k : K} :
    k ∈ m.keys ↔ ∃ nd, nd ∈ m.elements_list_ ∧ nd.first = k := by
  rw [keys_eq, List.mem_map]

theorem not_mem_keys_iff {m : HashMap K V} {k : K} :
    k ∉ m.keys ↔ ∀ nd, nd ∈ m.elements_list_ → nd.first ≠ k := by
  rw [mem_keys_iff]
  constructor
  · intro h nd hnd hk; exact h ⟨nd, hnd, hk⟩
  · rintro h ⟨nd, hnd, hk⟩; exact h nd hnd hk

theorem Wf.size_iteration {m : HashMap K V} (w : Wf m) : m.size_ = m.iteration.length := by
  rw [w.size_eq]
  simp [HashMap.iteration]

theorem Wf.keys_nodup_iteration {m : HashMap K V} (w : Wf m) : m.keys.Nodup := by
  rw [keys_eq]; exact w.keys_nodup

theorem wf_cleared (h : K → Nat) (n next : Nat) :
    Wf ({ hasher_ := h, size_ := 0, elements_list_ := [],
          array_ := List.replicate n ⟨none, -1⟩, next_ref_ := next } : HashMap K V) := by
  have hslot : ∀ i, slot (List.replicate n (⟨none, -1⟩ : array_element)) i = free_slot :=
    fun i => slot_replicate n i
  refine ⟨rfl, List.nodup_nil, ?_, List.nodup_nil, ⟨⟨?_, ?_, ?_⟩, ?_, ?_⟩⟩
  · intro nd hnd; cases hnd
  · intro i hi
    simp only [hslot] at hi
    exact absurd rfl hi
  · intro j _ hs
    simp only [hslot] at hs
    exact absurd hs (by decide)
  · intro i j hi
    simp only [hslot] at hi
    exact absurd rfl hi
  · intro r k hrk
    cases hrk
  · exact occupied_count_replicate n

/-- `resize_map()` on a well-formed map: the table gets the new capacity, the
iteration sequence and the hasher are kept, the map is well formed. -/
theorem resize_map_spec (d : Nat) {m : HashMap K V} (w : Wf m) :
    ∃ m', resize_map_with (HashMap.insert (d + 1)) m = .ok m' ∧ Wf m' ∧
      m'.array_.length = new_capacity m.size_ m.array_.length ∧
      m'.hasher_ = m.hasher_ ∧ m'.iteration = m.iteration := by
  have hcap := new_capacity_bound m.size_ m.array_.length
  obtain ⟨m', hrun, hw, hlen, hh, hit⟩ :=
    insert_run_no_resize d m.elements_list_
      ({ m with size_ := 0, elements_list_ := [],
                array_ := List.replicate (new_capacity m.size_ m.array_.length) ⟨none, -1⟩ })
      (wf_cleared m.hasher_ _ m.next_ref_) w.keys_nodup
      (by intro x _ nd hnd; cases hnd)
      (by
        simp only [List.length_replicate, Nat.zero_add]
        rw [← w.size_eq]
        omega)
  refine ⟨m', hrun, hw, ?_, hh, ?_⟩
  · rw [hlen]; simp
  · rw [hit]; simp [HashMap.iteration]

/-- `insert` on a well-formed map with a budget of two activations or more: the
call returns; the pair is appended if its key is not stored and nothing is visible
otherwise; the table is resized exactly when the test at the head of `insert`
holds; the result satisfies the invariant. -/
theorem insert_spec (d : Nat) {m : HashMap K V} (w : Wf m) (p : K × V) :
    ∃ m', HashMap.insert (d + 2) m p = .ok m' ∧ Inv m' ∧ m'.hasher_ = m.hasher_ ∧
      (p.1 ∈ m.keys → m'.iteration = m.iteration) ∧
      (p.1 ∉ m.keys → m'.iteration = m.iteration ++ [p]) ∧
      m'.array_.length =
        (if needs_resize m.size_ m.array_.length then new_capacity m.size_ m.array_.length
         else m.array_.length) ∧
      (needs_resize m.size_ m.array_.length = false → p.1 ∈ m.keys → m' = m) := by
  have body : ∀ (m1 : HashMap K V), Wf m1 → 20 * (m1.size_ + 1) ≤ 13 * m1.array_.length →
      ∃ m', insert_body m1 p = .ok m' ∧ Inv m' ∧ m'.hasher_ = m1.hasher_ ∧
        (p.1 ∈ m1.keys → m'.iteration = m1.iteration) ∧
        (p.1 ∉ m1.keys → m'.iteration = m1.iteration ++ [p]) ∧
        m'.array_.length = m1.array_.length ∧ (p.1 ∈ m1.keys → m' = m1) := by
    intro m1 w1 hroom
    by_cases hk : p.1 ∈ m1.keys
    · refine ⟨m1, insert_body_present w1 (mem_keys_iff.mp hk), ⟨w1, by omega⟩, rfl,
        fun _ => rfl, fun h => absurd hk h, rfl, fun _ => rfl⟩
    · obtain ⟨a, hbody, hlen, hw⟩ := insert_body_absent w1 (by omega) (not_mem_keys_iff.mp hk)
      refine ⟨inserted m1 p a, hbody, ⟨hw, ?_⟩, rfl, fun h => absurd h hk,
        fun _ => iteration_inserted m1 p a, hlen, fun h => absurd h hk⟩
      simp only [inserted, hlen]
      omega
  by_cases hr : needs_resize m.size_ m.array_.length = true
  · obtain ⟨m1, hres, hw1, hlen1, hh1, hit1⟩ := resize_map_spec d w
    have hsz : m1.size_ = m.size_ := by
      rw [hw1.size_iteration, w.size_iteration, hit1]
    have hkeys : m1.keys = m.keys := by
      unfold HashMap.keys; rw [hit1]
    have hcap := new_capacity_bound m.size_ m.array_.length
    obtain ⟨m', hb, hinv, hh, hpres, habs, hlen, _⟩ := body m1 hw1 (by rw [hsz, hlen1]; exact hcap)
    refine ⟨m', ?_, hinv, by rw [hh, hh1], ?_, ?_, ?_, ?_⟩
    · rw [HashMap.insert, hr]
      simp only [if_true, hres]
      exact hb
    · intro hk; rw [hpres (by rw [hkeys]; exact hk), hit1]
    · intro hk; rw [habs (by rw [hkeys]; exact hk), hit1]
    · rw [hlen, hlen1, hr]; simp
    · intro hf; rw [hr] at hf; cases hf
  · have hr2 : needs_resize m.size_ m.array_.length = false := by
      simpa using hr
    have hroom := (needs_resize_false_iff _ _).mp hr2
    obtain ⟨m', hb, hinv, hh, hpres, habs, hlen, hsame⟩ := body m w (by omega)
    refine ⟨m', ?_, hinv, hh, hpres, habs, ?_, fun _ hk => hsame hk⟩
    · rw [insert_no_resize (d + 1) p hr2]
      exact hb
    · rw [hlen, hr2]; simp

/-! ## `erase` -/

theorem subscript_int_of_lt {a : List array_element} {pos : Nat} (h : pos < a.length) :
    subscript_int a (pos : Int) = .ok (slot a pos) := by
  unfold subscript_int
  have : ¬ ((pos : Int) < 0) := by omega
  rw [if_neg this, Int.toNat_natCast]
  exact subscript_of_lt h

theorem mem_node_index_filter {L : List (list_node K V)} {x r : Nat} {k : K} :
    (r, k) ∈ node_index (L.filter (fun nd => decide (nd.ref ≠ x))) ↔
      (r, k) ∈ node_index L ∧ r ≠ x := by
  rw [mem_node_index, mem_node_index]
  constructor
  · rintro ⟨nd, hnd, hr, hk⟩
    rw [List.mem_filter] at hnd
    have h2 : nd.ref ≠ x := by simpa using hnd.2
    exact ⟨⟨nd, hnd.1, hr, hk⟩, by rw [← hr]; exact h2⟩
  · rintro ⟨⟨nd, hnd, hr, hk⟩, hne⟩
    refine ⟨nd, ?_, hr, hk⟩
    rw [List.mem_filter]
    exact ⟨hnd, by rw [← hr] at hne; simpa using hne⟩

theorem length_filter_ref {L : List (list_node K V)}
    (hnd : (L.map (fun nd => nd.ref)).Nodup) {nd : list_node K V} (hmem : nd ∈ L) :
    (L.filter (fun x => decide (x.ref ≠ nd.ref))).length + 1 = L.length := by
  induction L with
  | nil => cases hmem
  | cons hd tl ih =>
    rw [List.map_cons, List.nodup_cons] at hnd
    by_cases hh : hd.ref = nd.ref
    · have hall : ∀ x, x ∈ tl → decide (x.ref ≠ nd.ref) = true := by
        intro x hx
        simp only [ne_eq, decide_not, Bool.not_eq_true', decide_eq_false_iff_not]
        intro hxr
        apply hnd.1
        rw [hh, ← hxr]
        exact List.mem_map.mpr ⟨x, hx, rfl⟩
      rw [List.filter_cons]
      simp only [hh, ne_eq, not_true_eq_false, decide_False, Bool.false_eq_true, if_false]
      have := List.filter_eq_self.mpr hall
      simp only [ne_eq] at this
      rw [this, List.length_cons]
    · have hmem2 : nd ∈ tl := by
        rcases List.mem_cons.mp hmem with h1 | h1
        · exact absurd (by rw [h1]) hh
        · exact h1
      rw [List.filter_cons]
      simp only [ne_eq, hh, not_false_eq_true, decide_True, if_true, List.length_cons]
      have := ih hnd.2 hmem2
      simp only [ne_eq] at this
      omega

theorem iteration_filter_ref {L : List (list_node K V)}
    (hr : (L.map (fun nd => nd.ref)).Nodup) (hk : (L.map (fun nd => nd.first)).Nodup)
    {nd : list_node K V} (hmem : nd ∈ L) :
    (L.filter (fun x => decide (x.ref ≠ nd.ref))).map (fun x => (x.first, x.second))
      = (L.map (fun x => (x.first, x.second))).filter (fun q => decide (q.1 ≠ nd.first)) := by
  rw [List.filter_map]
  congr 1
  apply List.filter_congr
  intro x hx
  simp only [Function.comp, ne_eq, decide_not]
  congr 1
  by_cases h1 : x.ref = nd.ref
  · have := node_eq_of_ref hr hx hmem h1
    simp [this]
  · have h2 : x.first ≠ nd.first := fun h => h1 (by rw [node_eq_of_first hk hx hmem h])
    simp [h1, h2]

/-- `erase` on a stored key: the call returns, the node is removed from the list,
and the table left by the backward shift is a well-formed index of the list. -/
theorem erase_present {m : HashMap K V} (i : Inv m) {nd : list_node K V}
    (hnd : nd ∈ m.elements_list_) :
    ∃ a, m.erase nd.first = .ok (erased m nd a) ∧ a.length = m.array_.length ∧
      Inv (erased m nd a) := by
  obtain ⟨pos, hpos, hlt, hocc, hit⟩ := i.get_key_position_present hnd
  have w := i.wf
  have hsz : 0 < m.size_ := by
    rw [w.size_eq]; exact List.length_pos_of_mem hnd
  have hload := i.load
  have hn2 : 2 ≤ m.array_.length := by omega
  have hne : ¬ m.array_.length = 0 := by omega
  have hcount : occupied_count m.array_ < m.array_.length := by
    rw [w.occupied_count_eq]; omega
  have ss : ShiftState m.hasher_
      (node_index (m.elements_list_.filter (fun x => decide (x.ref ≠ nd.ref)))) m.array_ pos := by
    refine ⟨hlt, hn2, hocc, ?_, w.table.core.ordered, ?_⟩
    · intro j hj hjo
      obtain ⟨r, k, hmem, hjit, rest⟩ := w.table.core.exact j hjo
      refine ⟨r, k, ?_, hjit, rest⟩
      rw [mem_node_index_filter]
      refine ⟨hmem, ?_⟩
      intro hr
      apply hj
      apply w.table.core.inj j pos hjo hocc
      rw [hjit, hit, hr]
    · intro a b _ _ ha hb hab
      exact w.table.core.inj a b ha hb hab
  obtain ⟨r0, hr0, hend, hrun⟩ := first_free_from hcount hlt
  have hr0pos : 0 < r0 := by
    rcases Nat.eq_zero_or_pos r0 with h0 | h0
    · exfalso
      rw [h0, Nat.add_zero, Nat.mod_eq_of_lt hlt] at hend
      exact hocc hend
    · exact h0
  obtain ⟨a, hshift, hlen, hcore, hholds, hcnt⟩ :=
    erase_shift_spec (r0 - 1) m.array_.length m.array_ pos ss (by omega)
      (by
        have : r0 - 1 + 1 = r0 := by omega
        rw [this]; exact hend)
  refine ⟨a, ?_, hlen, ⟨⟨?_, ?_, ?_, ?_, ⟨hcore, ?_, ?_⟩⟩, ?_⟩⟩
  · unfold HashMap.erase
    rw [hpos]
    have hp1 : ((pos : Int) ≠ -1) := by omega
    simp only [hp1, ne_eq, not_false_eq_true, if_true, subscript_int_of_lt hlt, hit,
      deref_of_mem w.refs_nodup hnd, hne, if_false, Int.toNat_natCast, hshift]
    rfl
  · show m.size_ - 1 = (m.elements_list_.filter (fun x => decide (x.ref ≠ nd.ref))).length
    have := length_filter_ref w.refs_nodup hnd
    rw [w.size_eq]
    omega
  · exact List.Nodup.sublist (List.Sublist.map _ (List.filter_sublist _)) w.refs_nodup
  · intro x hx
    exact w.refs_lt x (List.mem_filter.mp hx).1
  · exact List.Nodup.sublist (List.Sublist.map _ (List.filter_sublist _)) w.keys_nodup
  · intro r k hrk
    show holds a (some r)
    have hrk2 := mem_node_index_filter.mp hrk
    obtain ⟨j, hjo, hjit⟩ := w.table.surj r k hrk2.1
    rw [hholds]
    refine ⟨j, ?_, hjo, hjit⟩
    intro hjp
    rw [hjp, hit] at hjit
    exact hrk2.2 (Option.some.inj hjit).symm
  · show occupied_count a
      = (node_index (m.elements_list_.filter (fun x => decide (x.ref ≠ nd.ref)))).length
    have h1 := length_filter_ref w.refs_nodup hnd
    have h2 := w.table.count
    unfold node_index at h2 ⊢
    rw [List.length_map] at h2 ⊢
    omega
  · show 20 * (m.size_ - 1) ≤ 13 * a.length
    rw [hlen]; omega

theorem iteration_erased {m : HashMap K V} (w : Wf m) {nd : list_node K V}
    (hnd : nd ∈ m.elements_list_) (a : List array_element) :
    (erased m nd a).iteration = m.iteration.filter (fun q => decide (q.1 ≠ nd.first)) :=
  iteration_filter_ref w.refs_nodup w.keys_nodup hnd

/-- `erase` on a key that is not stored returns the map as it is. -/
theorem erase_absent {m : HashMap K V} (i : Inv m) {key : K} (habs : key ∉ m.keys) :
    m.erase key = .ok m := by
  unfold HashMap.erase
  rw [i.get_key_position_absent (not_mem_keys_iff.mp habs)]
  simp

/-! ## Budgets of nested activations -/

theorem for_each_mono {S A : Type} {b1 b2 : S → A → Except Fault S}
    (h : ∀ s x s', b1 s x = .ok s' → b2 s x = .ok s') :
    ∀ (xs : List A) (s s' : S), for_each b1 xs s = .ok s' → for_each b2 xs s = .ok s' := by
  intro xs
  induction xs with
  | nil => intro s s' hs; exact hs
  | cons x xs ih =>
    intro s s' hs
    rw [for_each] at hs ⊢
    cases hb : b1 s x with
    | error f => rw [hb] at hs; cases hs
    | ok s1 =>
      rw [hb] at hs
      rw [h s x s1 hb]
      exact ih s1 s' hs

/-- A call of `insert` that returns within a budget returns the same map within
a larger one. -/
theorem insert_mono_succ : ∀ (d : Nat) (m : HashMap K V) (p : K × V) (m' : HashMap K V),
    HashMap.insert d m p = .ok m' → HashMap.insert (d + 1) m p = .ok m' := by
  intro d
  induction d with
  | zero => intro m p m' h; rw [HashMap.insert] at h; cases h
  | succ d ih =>
    intro m p m' h
    rw [HashMap.insert] at h ⊢
    by_cases hr : needs_resize m.size_ m.array_.length = true
    · simp only [hr, if_true] at h ⊢
      cases hres : resize_map_with (HashMap.insert d) m with
      | error f => rw [hres] at h; cases h
      | ok m1 =>
        rw [hres] at h
        have : resize_map_with (HashMap.insert (d + 1)) m = .ok m1 := by
          unfold resize_map_with at hres ⊢
          exact for_each_mono (fun s x s' hs => ih s (x.first, x.second) s' hs) _ _ _ hres
        rw [this]
        exact h
    · simp only [hr, if_false] at h ⊢
      exact h

theorem insert_mono (k : Nat) {d : Nat} {m : HashMap K V} {p : K × V} {m' : HashMap K V}
    (h : HashMap.insert d m p = .ok m') : HashMap.insert (d + k) m p = .ok m' := by
  induction k with
  | zero => exact h
  | succ k ih => exact insert_mono_succ _ _ _ _ ih

/-- Whatever the budget, a call of `insert` on a well-formed map that returns
gives the map described by `insert_spec`. -/
theorem insert_result {d : Nat} {m m' : HashMap K V} {p : K × V} (w : Wf m)
    (h : HashMap.insert d m p = .ok m') :
    Inv m' ∧ m'.hasher_ = m.hasher_ ∧
      (p.1 ∈ m.keys → m'.iteration = m.iteration) ∧
      (p.1 ∉ m.keys → m'.iteration = m.iteration ++ [p]) ∧
      m'.array_.length =
        (if needs_resize m.size_ m.array_.length then new_capacity m.size_ m.array_.length
         else m.array_.length) ∧
      (needs_resize m.size_ m.array_.length = false → p.1 ∈ m.keys → m' = m) := by
  obtain ⟨m2, h2, rest⟩ := insert_spec d w p
  have h3 := insert_mono 2 h
  rw [h2] at h3
  have : m2 = m' := Except.ok.inj h3
  rw [← this]
  exact rest

/-! ## `find`, `at`, `operator[]` and assignment through a reference -/

theorem mem_iteration_iff {m : HashMap K V} {k : K} {v : V} :
    (k, v) ∈ m.iteration ↔ ∃ nd, nd ∈ m.elements_list_ ∧ nd.first = k ∧ nd.second = v := by
  unfold HashMap.iteration
  rw [List.mem_map]
  constructor
  · rintro ⟨nd, hnd, heq⟩
    simp only [Prod.mk.injEq] at heq
    exact ⟨nd, hnd, heq.1, heq.2⟩
  · rintro ⟨nd, hnd, h1, h2⟩
    exact ⟨nd, hnd, by rw [h1, h2]⟩

theorem Inv.find_present {m : HashMap K V} (i : Inv m) {nd : list_node K V}
    (hnd : nd ∈ m.elements_list_) : m.find nd.first = .ok (some nd.ref) := by
  obtain ⟨pos, hpos, hlt, _, hit⟩ := i.get_key_position_present hnd
  unfold HashMap.find
  rw [hpos]
  have hp1 : ((pos : Int) ≠ -1) := by omega
  simp only [hp1, ne_eq, not_false_eq_true, if_true, subscript_int_of_lt hlt, hit]

theorem Inv.at_present {m : HashMap K V} (i : Inv m) {nd : list_node K V}
    (hnd : nd ∈ m.elements_list_) : m.at nd.first = .ok nd.second := by
  obtain ⟨pos, hpos, hlt, _, hit⟩ := i.get_key_position_present hnd
  unfold HashMap.at
  rw [hpos]
  have hp1 : ((pos : Int) ≠ -1) := by omega
  simp only [hp1, ne_eq, not_false_eq_true, if_true, subscript_int_of_lt hlt, hit,
    deref_of_mem i.wf.refs_nodup hnd]

theorem Wf.read_node {m : HashMap K V} (w : Wf m) {nd : list_node K V}
    (hnd : nd ∈ m.elements_list_) : m.read nd.ref = .ok nd.second := by
  unfold HashMap.read
  rw [deref_of_mem w.refs_nodup hnd]

theorem node_index_assigned (L : List (list_node K V)) (r : Nat) (value : V) :
    node_index (assigned L r value) = node_index L := by
  unfold node_index assigned
  rw [List.map_map]
  apply List.map_congr_left
  intro nd _
  simp only [Function.comp]
  split <;> rfl

theorem map_ref_assigned (L : List (list_node K V)) (r : Nat) (value : V) :
    (assigned L r value).map (fun nd => nd.ref) = L.map (fun nd => nd.ref) := by
  unfold assigned
  rw [List.map_map]
  apply List.map_congr_left
  intro nd _
  simp only [Function.comp]
  split <;> rfl

theorem map_first_assigned (L : List (list_node K V)) (r : Nat) (value : V) :
    (assigned L r value).map (fun nd => nd.first) = L.map (fun nd => nd.first) := by
  unfold assigned
  rw [List.map_map]
  apply List.map_congr_left
  intro nd _
  simp only [Function.comp]
  split <;> rfl

/-- An assignment through a reference keeps the invariant. -/
theorem inv_assigned {m : HashMap K V} (i : Inv m) (r : Nat) (value : V) :
    Inv { m with elements_list_ := assigned m.elements_list_ r value } := by
  have w := i.wf
  refine ⟨⟨?_, ?_, ?_, ?_, ?_⟩, i.load⟩
  · show m.size_ = (assigned m.elements_list_ r value).length
    rw [w.size_eq]
    simp [assigned]
  · show ((assigned m.elements_list_ r value).map (fun nd => nd.ref)).Nodup
    rw [map_ref_assigned]; exact w.refs_nodup
  · intro nd hnd
    have h1 : nd.ref ∈ (assigned m.elements_list_ r value).map (fun nd => nd.ref) :=
      List.mem_map.mpr ⟨nd, hnd, rfl⟩
    rw [map_ref_assigned] at h1
    obtain ⟨nd0, hnd0, he⟩ := List.mem_map.mp h1
    have := w.refs_lt nd0 hnd0
    show nd.ref < m.next_ref_
    omega
  · show ((assigned m.elements_list_ r value).map (fun nd => nd.first)).Nodup
    rw [map_first_assigned]; exact w.keys_nodup
  · show TableInv m.hasher_ (node_index (assigned m.elements_list_ r value)) m.array_
    rw [node_index_assigned]; exact w.table

theorem write_eq {m m' : HashMap K V} {r : Nat} {value : V} (h : m.write r value = .ok m') :
    m' = { m with elements_list_ := assigned m.elements_list_ r value } := by
  unfold HashMap.write at h
  cases hd : deref m.elements_list_ (some r) with
  | error f => rw [hd] at h; cases h
  | ok nd =>
    rw [hd] at h
    exact (Except.ok.inj h).symm

theorem Wf.write_node {m : HashMap K V} (w : Wf m) {nd : list_node K V}
    (hnd : nd ∈ m.elements_list_) (value : V) :
    m.write nd.ref value
      = .ok { m with elements_list_ := assigned m.elements_list_ nd.ref value } := by
  unfold HashMap.write
  rw [deref_of_mem w.refs_nodup hnd]
  rfl

/-- The iteration sequence after an assignment through a reference to the node
of key `nd.first`: the value of that key is replaced, nothing else changes. -/
theorem iteration_assigned {m : HashMap K V} (w : Wf m) {nd : list_node K V}
    (hnd : nd ∈ m.elements_list_) (value : V) :
    ({ m with elements_list_ := assigned m.elements_list_ nd.ref value } : HashMap K V).iteration
      = m.iteration.map (fun q => if q.1 = nd.first then (q.1, value) else q) := by
  unfold HashMap.iteration assigned
  simp only [List.map_map]
  apply List.map_congr_left
  intro x hx
  simp only [Function.comp]
  by_cases h1 : x.ref = nd.ref
  · have := node_eq_of_ref w.refs_nodup hx hnd h1
    simp [this]
  · have h2 : x.first ≠ nd.first := fun h => h1 (by rw [node_eq_of_first w.keys_nodup hx hnd h])
    simp [h1, h2]

variable [Inhabited V]

/-- `operator[]` on a stored key: one activation, the map is returned as it is
with a reference to the node of the key. -/
theorem Inv.subscript_op_present {m : HashMap K V} (i : Inv m) {nd : list_node K V}
    (hnd : nd ∈ m.elements_list_) (d calls : Nat) :
    HashMap.subscript_op d (calls + 1) m nd.first = .ok (m, nd.ref) := by
  obtain ⟨pos, hpos, hlt, _, hit⟩ := i.get_key_position_present hnd
  rw [HashMap.subscript_op, hpos]
  have hp1 : ((pos : Int) ≠ -1) := by omega
  simp only [hp1, ne_eq, not_false_eq_true, if_true, subscript_int_of_lt hlt, hit,
    deref_of_mem i.wf.refs_nodup hnd]

/-- `operator[]` on a key that is not stored: `insert` is called with the default
value and the second activation finds the new node. -/
theorem Inv.subscript_op_absent {m : HashMap K V} (i : Inv m) {key : K}
    (habs : key ∉ m.keys) (d calls : Nat) :
    HashMap.subscript_op d (calls + 1) m key =
      match HashMap.insert d m (key, default) with
      | .error f => .error f
      | .ok m' => HashMap.subscript_op d calls m' key := by
  rw [HashMap.subscript_op, i.get_key_position_absent (not_mem_keys_iff.mp habs)]
  simp

/-- Whatever the budgets, a call of `operator[]` that returns gives the map itself
when the key is stored, and the map after `insert` of the default value
otherwise, with a reference to the node of the key. -/
theorem subscript_op_result {d calls : Nat} {m m' : HashMap K V} {key : K} {r : Nat}
    (i : Inv m) (h : HashMap.subscript_op d calls m key = .ok (m', r)) :
    Inv m' ∧ m'.hasher_ = m.hasher_ ∧ (key ∈ m.keys → m' = m) ∧
      (key ∉ m.keys → m'.iteration = m.iteration ++ [(key, default)]) ∧
      ∃ nd, nd ∈ m'.elements_list_ ∧ nd.first = key ∧ nd.ref = r := by
  cases calls with
  | zero => rw [HashMap.subscript_op] at h; cases h
  | succ calls =>
    by_cases hk : key ∈ m.keys
    · obtain ⟨nd, hnd, hkey⟩ := mem_keys_iff.mp hk
      rw [← hkey, i.subscript_op_present hnd] at h
      simp only [Except.ok.injEq, Prod.mk.injEq] at h
      obtain ⟨h1, h2⟩ := h
      subst h1
      exact ⟨i, rfl, fun _ => rfl, fun hn => absurd hk hn, nd, hnd, hkey, h2⟩
    · rw [i.subscript_op_absent hk] at h
      cases hins : HashMap.insert d m (key, default) with
      | error f => rw [hins] at h; cases h
      | ok m1 =>
        rw [hins] at h
        simp only at h
        obtain ⟨hinv1, hh1, _, habs1, _, _⟩ := insert_result i.wf hins
        have hit1 := habs1 hk
        have hk1 : key ∈ m1.keys := by
          unfold HashMap.keys
          rw [hit1]
          simp
        cases calls with
        | zero => rw [HashMap.subscript_op] at h; cases h
        | succ calls =>
          obtain ⟨nd, hnd, hkey⟩ := mem_keys_iff.mp hk1
          rw [← hkey, hinv1.subscript_op_present hnd] at h
          simp only [Except.ok.injEq, Prod.mk.injEq] at h
          obtain ⟨h1, h2⟩ := h
          subst h1
          exact ⟨hinv1, hh1, fun hn => absurd hn hk, fun _ => hit1, nd, hnd, hkey, h2⟩

/-- Whatever happens, a call of `erase` that returns gives the map without the
pair of the key. -/
theorem erase_result {m m' : HashMap K V} {key : K} (i : Inv m)
    (h : m.erase key = .ok m') :
    Inv m' ∧ m'.hasher_ = m.hasher_ ∧ m'.array_.length = m.array_.length ∧
      m'.iteration = m.iteration.filter (fun q => decide (q.1 ≠ key)) ∧
      (key ∉ m.keys → m' = m) := by
  by_cases hk : key ∈ m.keys
  · obtain ⟨nd, hnd, hkey⟩ := mem_keys_iff.mp hk
    obtain ⟨a, he, hlen, hinv⟩ := erase_present i hnd
    rw [hkey, h] at he
    have : m' = erased m nd a := Except.ok.inj he
    subst this
    refine ⟨hinv, rfl, hlen, ?_, fun hn => absurd hk hn⟩
    rw [iteration_erased i.wf hnd, hkey]
  · rw [erase_absent i hk] at h
    have : m = m' := Except.ok.inj h
    subst this
    refine ⟨i, rfl, rfl, ?_, fun _ => rfl⟩
    symm
    apply List.filter_eq_self.mpr
    intro q hq
    have : q.1 ≠ key := by
      intro hq1
      apply hk
      unfold HashMap.keys
      exact List.mem_map.mpr ⟨q, hq, hq1⟩
    simpa using this

end WellFormed

/-! ## Reachable maps -/

section Reachability

variable {K V : Type} [DecidableEq K] [Inhabited V]

theorem inv_new (h : K → Nat) : Inv (HashMap.new h : HashMap K V) :=
  ⟨wf_cleared h 0 0, Nat.le_refl _⟩

theorem inv_clear (m : HashMap K V) : Inv m.clear :=
  ⟨wf_cleared m.hasher_ 0 m.next_ref_, Nat.le_refl _⟩

/-- Whatever the budget, a call of `resize_map` on a well-formed map that returns
gives the map described by `resize_map_spec`, which satisfies the invariant. -/
theorem resize_map_result {d : Nat} {m m' : HashMap K V} (w : Wf m)
    (h : m.resize_map d = .ok m') :
    Inv m' ∧ m'.array_.length = new_capacity m.size_ m.array_.length ∧
      m'.hasher_ = m.hasher_ ∧ m'.iteration = m.iteration := by
  obtain ⟨m2, h2, hw, hlen, hh, hit⟩ := resize_map_spec d w
  have h3 : resize_map_with (HashMap.insert (d + 1)) m = .ok m' := by
    unfold HashMap.resize_map resize_map_with at h
    unfold resize_map_with
    exact for_each_mono
      (fun s x s' hs => insert_mono_succ d s (x.first, x.second) s' hs) _ _ _ h
  rw [h2] at h3
  have heq : m2 = m' := Except.ok.inj h3
  rw [← heq]
  refine ⟨⟨hw, ?_⟩, hlen, hh, hit⟩
  have hsz : m2.size_ = m.size_ := by
    rw [hw.size_iteration, w.size_iteration, hit]
  have := new_capacity_bound m.size_ m.array_.length
  rw [hsz, hlen]
  omega

/-- Every reachable map satisfies the invariant. -/
theorem Reachable.inv {m : HashMap K V} (hr : Reachable m) : Inv m := by
  induction hr with
  | new h => exact inv_new h
  | insert d p _ h ih => exact (insert_result ih.wf h).1
  | erase key _ h ih => exact (erase_result ih h).1
  | subscript_op d calls key _ h ih => exact (subscript_op_result ih h).1
  | write r value _ h ih =>
    rw [write_eq h]
    exact inv_assigned ih r value
  | clear _ _ => exact inv_clear _
  | resize_map d _ h ih => exact (resize_map_result ih.wf h).1

/-! ## Sequential insertion -/

theorem mem_first_occurrences_keys (items : List (K × V)) (k : K) :
    k ∈ (first_occurrences items).map Prod.fst ↔ k ∈ items.map Prod.fst := by
  induction items with
  | nil => simp [first_occurrences]
  | cons p ps ih =>
    simp only [first_occurrences, List.map_cons, List.mem_cons]
    constructor
    · rintro (h | h)
      · exact Or.inl h
      · right
        rw [← ih]
        obtain ⟨q, hq, hqk⟩ := List.mem_map.mp h
        exact List.mem_map.mpr ⟨q, (List.mem_filter.mp hq).1, hqk⟩
    · rintro (h | h)
      · exact Or.inl h
      · by_cases hk : k = p.1
        · exact Or.inl hk
        · right
          rw [← ih] at h
          obtain ⟨q, hq, hqk⟩ := List.mem_map.mp h
          refine List.mem_map.mpr ⟨q, List.mem_filter.mpr ⟨hq, ?_⟩, hqk⟩
          rw [← hqk] at hk
          simpa using hk

theorem first_occurrences_keys_nodup (items : List (K × V)) :
    ((first_occurrences items).map Prod.fst).Nodup := by
  induction items with
  | nil => simp [first_occurrences]
  | cons p ps ih =>
    simp only [first_occurrences, List.map_cons, List.nodup_cons]
    constructor
    · intro h
      obtain ⟨q, hq, hqk⟩ := List.mem_map.mp h
      have := (List.mem_filter.mp hq).2
      simp only [ne_eq, decide_not, Bool.not_eq_true', decide_eq_false_iff_not] at this
      exact this hqk
    · exact List.Nodup.sublist (List.Sublist.map _ (List.filter_sublist _)) ih

theorem first_occurrences_length (items : List (K × V)) :
    (first_occurrences items).length = distinct_keys items := by
  unfold distinct_keys
  rw [← List.length_map (first_occurrences items) Prod.fst,
    ← List.toFinset_card_of_nodup (first_occurrences_keys_nodup items)]
  congr 1
  ext k
  simp only [List.mem_toFinset]
  exact mem_first_occurrences_keys items k

theorem first_occurrences_of_nodup (items : List (K × V))
    (h : (items.map Prod.fst).Nodup) : first_occurrences items = items := by
  induction items with
  | nil => rfl
  | cons p ps ih =>
    rw [List.map_cons, List.nodup_cons] at h
    rw [first_occurrences, ih h.2]
    congr 1
    apply List.filter_eq_self.mpr
    intro q hq
    have : q.1 ≠ p.1 := by
      intro hqp
      exact h.1 (List.mem_map.mpr ⟨q, hq, hqp⟩)
    simpa using this

theorem keys_append_singleton {m m' : HashMap K V} {p : K × V}
    (h : m'.iteration = m.iteration ++ [p]) : m'.keys = m.keys ++ [p.1] := by
  unfold HashMap.keys
  rw [h]
  simp

/-- A run of `insert` calls on a map that satisfies the invariant: every call
returns, and the pairs appended are the first occurrences of the keys that were
not stored, in order. -/
theorem insert_run_spec (d : Nat) :
    ∀ (items : List (K × V)) (acc : HashMap K V), Inv acc →
      ∃ acc', for_each (HashMap.insert (d + 2)) items acc = .ok acc' ∧ Inv acc' ∧
        acc'.hasher_ = acc.hasher_ ∧
        acc'.iteration = acc.iteration ++
          (first_occurrences items).filter (fun q => decide (q.1 ∉ acc.keys)) := by
  intro items
  induction items with
  | nil =>
    intro acc i
    exact ⟨acc, rfl, i, rfl, by simp [first_occurrences]⟩
  | cons p ps ih =>
    intro acc i
    obtain ⟨acc1, hins, hinv1, hh1, hpres, habs, _, _⟩ := insert_spec d i.wf p
    obtain ⟨acc', hrun, hinv', hh', hit'⟩ := ih acc1 hinv1
    refine ⟨acc', ?_, hinv', by rw [hh', hh1], ?_⟩
    · rw [for_each, hins]
      exact hrun
    · rw [hit']
      by_cases hk : p.1 ∈ acc.keys
      · have hkeys : acc1.keys = acc.keys := by
          unfold HashMap.keys; rw [hpres hk]
        rw [hpres hk, hkeys, first_occurrences, List.filter_cons]
        have hp : decide (p.1 ∉ acc.keys) = false := by simpa using hk
        rw [hp]
        simp only [Bool.false_eq_true, if_false, List.filter_filter]
        congr 1
        apply List.filter_congr
        intro q _
        by_cases hq : q.1 ∈ acc.keys
        · simp [hq]
        · have : q.1 ≠ p.1 := fun h => hq (by rw [h]; exact hk)
          simp [hq, this]
      · have hkeys : acc1.keys = acc.keys ++ [p.1] := keys_append_singleton (habs hk)
        rw [habs hk, hkeys, first_occurrences, List.filter_cons]
        have hp : decide (p.1 ∉ acc.keys) = true := by simpa using hk
        rw [hp]
        simp only [if_true, List.filter_filter, List.append_assoc, List.singleton_append]
        congr 2
        apply List.filter_congr
        intro q _
        by_cases hq : q.1 ∈ acc.keys
        · simp [hq]
        · by_cases hqp : q.1 = p.1
          · simp [hqp]
          · simp [hq, hqp]

theorem for_each_map {S A B : Type} (b : S → B → Except Fault S) (f : A → B) :
    ∀ (xs : List A) (s : S), for_each (fun acc x => b acc (f x)) xs s = for_each b (xs.map f) s := by
  intro xs
  induction xs with
  | nil => intro s; rfl
  | cons x xs ih =>
    intro s
    rw [List.map_cons, for_each, for_each]
    cases b s (f x) with
    | error e => rfl
    | ok s1 => exact ih s1

/-- In a map that satisfies the invariant every pair of the iteration sequence is
found by `find`, `at` and `get_key_position`. -/
theorem Inv.findable {m : HashMap K V} (i : Inv m) {k : K} {v : V}
    (h : (k, v) ∈ m.iteration) :
    ∃ r, m.find k = .ok (some r) ∧ m.read r = .ok v ∧ m.at k = .ok v := by
  obtain ⟨nd, hnd, hk, hv⟩ := mem_iteration_iff.mp h
  refine ⟨nd.ref, ?_, ?_, ?_⟩
  · rw [← hk]; exact i.find_present hnd
  · rw [← hv]; exact i.wf.read_node hnd
  · rw [← hk, ← hv]; exact i.at_present hnd

/-- A run of `insert` calls that returns leads from a reachable map to a reachable
map. -/
theorem reachable_run (d : Nat) :
    ∀ (items : List (K × V)) {acc acc' : HashMap K V}, Reachable acc →
      for_each (HashMap.insert d) items acc = .ok acc' → Reachable acc' := by
  intro items
  induction items with
  | nil =>
    intro acc acc' hr h
    have : acc = acc' := Except.ok.inj h
    rw [← this]; exact hr
  | cons p ps ih =>
    intro acc acc' hr h
    rw [for_each] at h
    cases hins : HashMap.insert d acc p with
    | error f => rw [hins] at h; cases h
    | ok acc1 =>
      rw [hins] at h
      exact ih (Reachable.insert d p hr hins) h

/-! ## The exception `std::out_of_range` -/

theorem filter_first_occurrences_cons_mem {p : K × V} {ps : List (K × V)} {ks : List K}
    (hk : p.1 ∈ ks) :
    (first_occurrences (p :: ps)).filter (fun q => decide (q.1 ∉ ks))
      = (first_occurrences ps).filter (fun q => decide (q.1 ∉ ks)) := by
  rw [first_occurrences, List.filter_cons]
  have hp : decide (p.1 ∉ ks) = false := by simpa using hk
  rw [hp]
  simp only [Bool.false_eq_true, if_false, List.filter_filter]
  apply List.filter_congr
  intro q _
  by_cases hq : q.1 ∈ ks
  · simp [hq]
  · have : q.1 ≠ p.1 := fun h => hq (by rw [h]; exact hk)
    simp [hq, this]

theorem filter_first_occurrences_cons_not_mem {p : K × V} {ps : List (K × V)} {ks : List K}
    (hk : p.1 ∉ ks) :
    (first_occurrences (p :: ps)).filter (fun q => decide (q.1 ∉ ks))
      = p :: (first_occurrences ps).filter (fun q => decide (q.1 ∉ ks ++ [p.1])) := by
  rw [first_occurrences, List.filter_cons]
  have hp : decide (p.1 ∉ ks) = true := by simpa using hk
  rw [hp]
  simp only [if_true, List.filter_filter]
  congr 1
  apply List.filter_congr
  intro q _
  by_cases hq : q.1 ∈ ks
  · simp [hq]
  · by_cases hqp : q.1 = p.1
    · simp [hqp]
    · simp [hq, hqp]

/-- Assigning the pairs of a list in order leaves the keys where they first
appeared, each with the value of its last pair. -/
theorem foldl_assign_step (list : List (K × V)) :
    ∀ l0 : List (K × V),
      list.foldl assign_step l0
        = l0.map (fun q => (q.1, last_value list q.1 q.2)) ++
          ((first_occurrences list).filter (fun q => decide (q.1 ∉ l0.map Prod.fst))).map
            (fun q => (q.1, last_value list q.1 q.2)) := by
  induction list with
  | nil =>
    intro l0
    simp [first_occurrences, last_value]
  | cons p ps ih =>
    intro l0
    rw [List.foldl_cons, ih]
    by_cases hk : p.1 ∈ l0.map Prod.fst
    · have hstep : assign_step l0 p
          = l0.map (fun q => if q.1 = p.1 then (q.1, p.2) else q) := by
        unfold assign_step; rw [if_pos hk]
      have hkeys : (assign_step l0 p).map Prod.fst = l0.map Prod.fst := by
        rw [hstep, List.map_map]
        apply List.map_congr_left
        intro q _
        simp only [Function.comp]
        split <;> rfl
      rw [hkeys, filter_first_occurrences_cons_mem hk, hstep, List.map_map]
      congr 1
      · apply List.map_congr_left
        intro q _
        simp only [Function.comp, last_value]
        by_cases hq : q.1 = p.1
        · simp [hq]
        · have hq2 : ¬ p.1 = q.1 := fun h => hq h.symm
          simp [hq, hq2]
      · apply List.map_congr_left
        intro q hq
        have hq1 := (List.mem_filter.mp hq).2
        simp only [decide_not, Bool.not_eq_true', decide_eq_false_iff_not] at hq1
        have hq2 : ¬ p.1 = q.1 := fun h => hq1 (by rw [← h]; exact hk)
        simp [last_value, hq2]
    · have hstep : assign_step l0 p = l0 ++ [p] := by
        unfold assign_step; rw [if_neg hk]
      have hkeys : (assign_step l0 p).map Prod.fst = l0.map Prod.fst ++ [p.1] := by
        rw [hstep]; simp
      rw [hkeys, filter_first_occurrences_cons_not_mem hk, hstep, List.map_append,
        List.map_cons, List.map_cons, List.map_nil, List.append_assoc, List.singleton_append]
      congr 1
      · apply List.map_congr_left
        intro q hq
        have hq2 : ¬ p.1 = q.1 := fun h => hk (by rw [h]; exact List.mem_map.mpr ⟨q, hq, rfl⟩)
        simp [last_value, hq2]
      · congr 1
        · simp [last_value]
        · apply List.map_congr_left
          intro q hq
          have hq1 := (List.mem_filter.mp hq).2
          simp only [List.mem_append, List.mem_singleton, not_or, decide_eq_true_eq] at hq1
          have hq2 : ¬ p.1 = q.1 := fun h => hq1.2 h.symm
          simp [last_value, hq2]

/-- One step of the list constructor, `(*this)[p.first] = p.second`, on a map that
satisfies the invariant. -/
theorem from_list_step (d calls : Nat) {acc : HashMap K V} (i : Inv acc) (p : K × V) :
    ∃ acc1,
      (match HashMap.subscript_op (d + 2) (calls + 2) acc p.1 with
        | .error f => Except.error f
        | .ok (acc', r) => HashMap.write acc' r p.2) = .ok acc1 ∧
      Inv acc1 ∧ acc1.hasher_ = acc.hasher_ ∧
      acc1.iteration = assign_step acc.iteration p := by
  by_cases hk : p.1 ∈ acc.keys
  · obtain ⟨nd, hnd, hkey⟩ := mem_keys_iff.mp hk
    refine ⟨{ acc with elements_list_ := assigned acc.elements_list_ nd.ref p.2 }, ?_,
      inv_assigned i nd.ref p.2, rfl, ?_⟩
    · rw [← hkey, i.subscript_op_present hnd]
      exact i.wf.write_node hnd p.2
    · rw [iteration_assigned i.wf hnd, hkey]
      unfold assign_step
      rw [if_pos (show p.1 ∈ acc.iteration.map Prod.fst from hk)]
  · obtain ⟨m1, hins, hinv1, hh1, _, habs, _, _⟩ := insert_spec d i.wf (p.1, (default : V))
    have hit := habs hk
    have hmem : (p.1, (default : V)) ∈ m1.iteration := by rw [hit]; simp
    obtain ⟨nd, hnd, hk2, _⟩ := mem_iteration_iff.mp hmem
    refine ⟨{ m1 with elements_list_ := assigned m1.elements_list_ nd.ref p.2 }, ?_,
      inv_assigned hinv1 nd.ref p.2, hh1, ?_⟩
    · rw [i.subscript_op_absent hk, hins]
      simp only
      rw [← hk2, hinv1.subscript_op_present hnd]
      exact hinv1.wf.write_node hnd p.2
    · rw [iteration_assigned hinv1.wf hnd, hit, hk2]
      unfold assign_step
      have hk3 : p.1 ∉ acc.iteration.map Prod.fst := hk
      rw [if_neg hk3, List.map_append]
      congr 1
      · conv_rhs => rw [← List.map_id acc.iteration]
        apply List.map_congr_left
        intro q hq
        have : ¬ q.1 = p.1 := fun h => hk3 (by rw [← h]; exact List.mem_map.mpr ⟨q, hq, rfl⟩)
        simp [this]
      · simp

theorem from_list_run (d calls : Nat) :
    ∀ (list : List (K × V)) (acc : HashMap K V), Inv acc →
      ∃ acc',
        for_each
          (fun acc p =>
            match HashMap.subscript_op (d + 2) (calls + 2) acc p.1 with
            | .error f => .error f
            | .ok (acc', r) => HashMap.write acc' r p.2)
          list acc = .ok acc' ∧
        Inv acc' ∧ acc'.hasher_ = acc.hasher_ ∧
        acc'.iteration = list.foldl assign_step acc.iteration := by
  intro list
  induction list with
  | nil => intro acc i; exact ⟨acc, rfl, i, rfl, rfl⟩
  | cons p ps ih =>
    intro acc i
    obtain ⟨acc1, hstep, hinv1, hh1, hit1⟩ := from_list_step d calls i p
    obtain ⟨acc', hrun, hinv', hh', hit'⟩ := ih acc1 hinv1
    refine ⟨acc', ?_, hinv', by rw [hh', hh1], by rw [hit', hit1, List.foldl_cons]⟩
    rw [for_each]
    simp only [hstep]
    exact hrun

/-! ## Copies -/

/-- Inserting every entry of a map that satisfies the invariant into a map
without entries gives a map with the same iteration sequence. -/
theorem copy_run (d : Nat) {s acc : HashMap K V} (hs : Inv s) (ha : Inv acc)
    (hempty : acc.iteration = []) :
    ∃ c, for_each (fun acc nd => HashMap.insert (d + 2) acc (nd.first, nd.second))
        s.elements_list_ acc = .ok c ∧
      Inv c ∧ c.hasher_ = acc.hasher_ ∧ c.iteration = s.iteration := by
  obtain ⟨c, hrun, hinv, hh, hit⟩ := insert_run_spec d s.iteration acc ha
  refine ⟨c, ?_, hinv, hh, ?_⟩
  · have hmap := for_each_map (HashMap.insert (d + 2))
      (fun nd : list_node K V => (nd.first, nd.second)) s.elements_list_ acc
    rw [hmap]
    exact hrun
  · rw [hit, hempty, first_occurrences_of_nodup _ hs.wf.keys_nodup_iteration]
    have : acc.keys = [] := by unfold HashMap.keys; rw [hempty]; rfl
    rw [this]
    simp

/-! ## Examples -/

theorem sample_map_reachable : Reachable sample_map :=
  reachable_run 2 [(1, 10), (5, 50), (9, 90)] (Reachable.new sample_hasher) (by rfl)

theorem small_map_reachable : Reachable small_map :=
  reachable_run 2 [(1, 10), (5, 50)] (Reachable.new sample_hasher) (by rfl)

/-- C2: for every finite sequence of pairs, the range constructor is the
insertion of the pairs in order into an empty map; it returns a map whose `size()`
is the number of distinct keys of the sequence and whose iteration sequence is
the first occurrence of each key, with its value, in order of first appearance. -/
theorem C2_range_constructor (items : List (K × V)) (new_hasher : K → Nat) (d : Nat) :
    HashMap.from_range (d + 2) items new_hasher
        = for_each (HashMap.insert (d + 2)) items (HashMap.new new_hasher) ∧
      ∃ m, HashMap.from_range (d + 2) items new_hasher = .ok m ∧
        m.size = distinct_keys items ∧ m.iteration = first_occurrences items := by
  refine ⟨rfl, ?_⟩
  obtain ⟨m, hrun, hinv, _, hit⟩ :=
    insert_run_spec d items (HashMap.new new_hasher) (inv_new new_hasher)
  have hit2 : m.iteration = first_occurrences items := by
    rw [hit]
    simp [HashMap.new, HashMap.iteration, HashMap.keys]
  refine ⟨m, hrun, ?_, hit2⟩
  show m.size_ = distinct_keys items
  rw [hinv.wf.size_iteration, hit2, first_occurrences_length]

/-- C3: for every reachable map and every key `k` that is not stored,
`insert({k, v})` returns a map whose iteration sequence is the previous one
followed by `(k, v)` and whose `size()` is one more, whether the call resizes the
table or not. -/
theorem C3_insert_absent {m : HashMap K V} (hr : Reachable m) (k : K) (v : V)
    (habs : k ∉ m.keys) (d : Nat) :
    ∃ m', HashMap.insert (d + 2) m (k, v) = .ok m' ∧
      m'.iteration = m.iteration ++ [(k, v)] ∧ m'.size = m.size + 1 := by
  obtain ⟨m', hins, hinv, _, _, habs', _, _⟩ := insert_spec d hr.inv.wf (k, v)
  refine ⟨m', hins, habs' habs, ?_⟩
  show m'.size_ = m.size_ + 1
  rw [hinv.wf.size_iteration, hr.inv.wf.size_iteration, habs' habs]
  simp

/-- C3 at `small_map` (the call resizes the table) with the pair `(13, 130)`. -/
theorem C3_witness :
    Reachable small_map ∧ 13 ∉ small_map.keys ∧
      needs_resize small_map.size_ small_map.array_.length = true ∧
      ∃ m', HashMap.insert 2 small_map (13, 130) = .ok m' ∧
        m'.iteration = small_map.iteration ++ [(13, 130)] ∧ m'.size = small_map.size + 1 :=
  ⟨small_map_reachable, by decide, by decide,
    C3_insert_absent small_map_reachable 13 130 (by decide) 0⟩

/-- C4: for every reachable map that has the pair `(k, v)` and every value `v'`,
`insert({k, v'})` returns a map with the same `size()` and the same iteration
sequence, whether the call resizes the table or not. -/
theorem C4_insert_present {m : HashMap K V} (hr : Reachable m) (k : K) (v v' : V)
    (hpres : (k, v) ∈ m.iteration) (d : Nat) :
    ∃ m', HashMap.insert (d + 2) m (k, v') = .ok m' ∧
      m'.size = m.size ∧ m'.iteration = m.iteration := by
  have hk : k ∈ m.keys := List.mem_map.mpr ⟨(k, v), hpres, rfl⟩
  obtain ⟨m', hins, hinv, _, hpres', _, _, _⟩ := insert_spec d hr.inv.wf (k, v')
  refine ⟨m', hins, ?_, hpres' hk⟩
  show m'.size_ = m.size_
  rw [hinv.wf.size_iteration, hr.inv.wf.size_iteration, hpres' hk]

/-- C4 at `small_map` (the call resizes the table before its existence check)
with the stored key 5 and another value. -/
theorem C4_witness :
    Reachable small_map ∧ (5, 50) ∈ small_map.iteration ∧
      needs_resize small_map.size_ small_map.array_.length = true ∧
      ∃ m', HashMap.insert 2 small_map (5, 51) = .ok m' ∧
        m'.size = small_map.size ∧ m'.iteration = small_map.iteration :=
  ⟨small_map_reachable, by decide, by decide,
    C4_insert_present small_map_reachable 5 50 51 (by decide) 0⟩

/-- C8: the capacity of the probe table is positive after any `insert` on a
reachable map and `size() <= capacity * 13/20` holds then, hence in every
reachable map; after the insertion of 10 pairs of distinct keys into a freshly
constructed map the capacity `c` satisfies `10 <= c * 13/20` and every pair is
found. -/
theorem C8_load_factor {m : HashMap K V} (hr : Reachable m) :
    ((m.size : ℚ) ≤ (m.array_.length : ℚ) * (13 / 20)) ∧
    (∀ d p m', HashMap.insert d m p = .ok m' →
      0 < m'.array_.length ∧ ((m'.size : ℚ) ≤ (m'.array_.length : ℚ) * (13 / 20))) ∧
    (∀ (items : List (K × V)) (h : K → Nat) (d : Nat), items.length = 10 →
      (items.map Prod.fst).Nodup →
      ∃ m10, for_each (HashMap.insert (d + 2)) items (HashMap.new h) = .ok m10 ∧
        m10.size = 10 ∧ ((10 : ℚ) ≤ (m10.array_.length : ℚ) * (13 / 20)) ∧
        ∀ k v, (k, v) ∈ items → ∃ r, m10.find k = .ok (some r) ∧ m10.read r = .ok v) := by
  have bound : ∀ {x : HashMap K V}, Inv x →
      ((x.size : ℚ) ≤ (x.array_.length : ℚ) * (13 / 20)) := by
    intro x ix
    have h1 : ((20 * x.size_ : Nat) : ℚ) ≤ ((13 * x.array_.length : Nat) : ℚ) := by
      exact_mod_cast ix.load
    push_cast at h1
    show (x.size_ : ℚ) ≤ (x.array_.length : ℚ) * (13 / 20)
    linarith
  refine ⟨bound hr.inv, ?_, ?_⟩
  · intro d p m' hins
    obtain ⟨hinv, _, hpres, habs, _, _⟩ := insert_result hr.inv.wf hins
    refine ⟨?_, bound hinv⟩
    have hpos : 0 < m'.size_ := by
      rw [hinv.wf.size_iteration]
      by_cases hk : p.1 ∈ m.keys
      · rw [hpres hk]
        obtain ⟨q, hq, _⟩ := List.mem_map.mp hk
        exact List.length_pos_of_mem hq
      · rw [habs hk]; simp
    have := hinv.load
    omega
  · intro items h d hlen hnd
    obtain ⟨m10, hrun, hinv, _, hit⟩ := insert_run_spec d items (HashMap.new h) (inv_new h)
    have hit2 : m10.iteration = items := by
      rw [hit, first_occurrences_of_nodup items hnd]
      simp [HashMap.new, HashMap.iteration, HashMap.keys]
    have hsz : m10.size = 10 := by
      show m10.size_ = 10
      rw [hinv.wf.size_iteration, hit2, hlen]
    refine ⟨m10, hrun, hsz, ?_, ?_⟩
    · have := bound hinv
      rw [hsz] at this
      exact_mod_cast this
    · intro k v hkv
      rw [← hit2] at hkv
      obtain ⟨r, h1, h2, _⟩ := hinv.findable hkv
      exact ⟨r, h1, h2⟩

/-- C8 at `sample_map`: three entries in eight slots. -/
theorem C8_witness :
    Reachable sample_map ∧
      ((sample_map.size : ℚ) ≤ (sample_map.array_.length : ℚ) * (13 / 20)) :=
  ⟨sample_map_reachable, (C8_load_factor sample_map_reachable).1⟩

/-- C9, what the code does: for every literal list of pairs the list constructor
returns a map whose iteration sequence has each key of the list at the position of
its first occurrence, but with the value of its last occurrence, because every
element is stored by `(*this)[p.first] = p.second`, which overwrites. The
constructed map is the one C9 describes (the first occurrences, which is what the
sibling range constructor builds from the same pairs through `insert`) exactly when
every key of the list has the same value at its last occurrence as at its first. -/
theorem C9_list_constructor (list : List (K × V)) (default_hasher new_hasher : K → Nat)
    (d calls : Nat) :
    ∃ m, HashMap.from_list (d + 2) (calls + 2) default_hasher list new_hasher = .ok m ∧
      m.iteration = (first_occurrences list).map (fun q => (q.1, last_value list q.1 q.2)) ∧
      m.size = distinct_keys list ∧
      (m.iteration = first_occurrences list ↔
        ∀ q ∈ first_occurrences list, last_value list q.1 q.2 = q.2) ∧
      ∃ m2, HashMap.from_range (d + 2) list new_hasher = .ok m2 ∧
        m2.iteration = first_occurrences list ∧ m2.size = m.size ∧
        m2.keys = m.keys := by
  obtain ⟨m, hrun, hinv, _, hit⟩ :=
    from_list_run d calls list (HashMap.new default_hasher) (inv_new default_hasher)
  have hit2 : m.iteration
      = (first_occurrences list).map (fun q => (q.1, last_value list q.1 q.2)) := by
    rw [hit, foldl_assign_step]
    simp [HashMap.new, HashMap.iteration]
  have hsz : m.size_ = distinct_keys list := by
    rw [hinv.wf.size_iteration, hit2, List.length_map, first_occurrences_length]
  obtain ⟨m2, hrun2, hinv2, _, hit3⟩ :=
    insert_run_spec d list (HashMap.new new_hasher) (inv_new new_hasher)
  have hit4 : m2.iteration = first_occurrences list := by
    rw [hit3]
    simp [HashMap.new, HashMap.iteration, HashMap.keys]
  have hsz2 : m2.size_ = distinct_keys list := by
    rw [hinv2.wf.size_iteration, hit4, first_occurrences_length]
  refine ⟨m, hrun, hit2, hsz, ?_, m2, hrun2, hit4, ?_, ?_⟩
  · rw [hit2]
    constructor
    · intro h q hq
      have h2 : (first_occurrences list).map (fun q => (q.1, last_value list q.1 q.2))
          = (first_occurrences list).map id := by rw [h, List.map_id]
      have h3 := (List.map_inj_left.mp h2) q hq
      exact congrArg Prod.snd h3
    · intro h
      have h2 : (first_occurrences list).map (fun q => (q.1, last_value list q.1 q.2))
          = (first_occurrences list).map id := by
        apply List.map_congr_left
        intro q hq
        show (q.1, last_value list q.1 q.2) = q
        rw [h q hq]
      rw [h2, List.map_id]
  · show m2.size_ = m.size_
    rw [hsz, hsz2]
  · show m2.iteration.map Prod.fst = m.iteration.map Prod.fst
    rw [hit4, hit2, List.map_map]
    apply List.map_congr_left
    intro q _
    rfl

/-- C9 fails on the list `{{1, 10}, {1, 11}}`: the map built by the list
constructor stores 11 for key 1, the value of the last occurrence, where the first
occurrence has 10, which is what the range constructor stores for the same pairs. -/
theorem C9_counterexample :
    ∃ m, HashMap.from_list 2 2 sample_hasher [(1, 10), (1, 11)] sample_hasher = .ok m ∧
      m.at 1 = .ok 11 ∧ m.iteration = [(1, 11)] ∧
      first_occurrences [(1, 10), (1, 11)] = [((1 : Nat), (10 : Nat))] ∧
      m.iteration ≠ first_occurrences [(1, 10), (1, 11)] ∧
      ∃ m2, HashMap.from_range 2 [(1, 10), (1, 11)] sample_hasher = .ok m2 ∧
        m2.at 1 = .ok 10 ∧ m2.iteration = [(1, 10)] :=
  ⟨{ hasher_ := sample_hasher, size_ := 1, elements_list_ := [⟨0, 1, 11⟩],
     array_ := [⟨none, -1⟩, ⟨some 0, 0⟩], next_ref_ := 1 },
    by rfl, by rfl, by rfl, by decide, by decide,
    { hasher_ := sample_hasher, size_ := 1, elements_list_ := [⟨1, 1, 10⟩],
      array_ := [⟨none, -1⟩, ⟨some 1, 0⟩, ⟨none, -1⟩, ⟨none, -1⟩], next_ref_ := 2 },
    by rfl, by rfl, by rfl⟩

/-- C10: for every reachable source map `s`, copy-construction from `s`, and
copy-assignment of `s` to any target map `t` (reachable or not, empty or not),
also to `s` itself, return a map with the same `size()` and the same iteration
sequence as `s`, in which every pair of `s` is found; `s` is a value that the
calls only read. -/
theorem C10_copy {s : HashMap K V} (hs : Reachable s) (t : HashMap K V)
    (default_hasher : K → Nat) (d : Nat) :
    (∃ c, HashMap.copy (d + 2) default_hasher s = .ok c ∧
      c.size = s.size ∧ c.iteration = s.iteration ∧
      ∀ k v, (k, v) ∈ s.iteration → ∃ r, c.find k = .ok (some r) ∧ c.read r = .ok v) ∧
    (∃ c, HashMap.assign (d + 2) t s = .ok c ∧
      c.size = s.size ∧ c.iteration = s.iteration ∧
      ∀ k v, (k, v) ∈ s.iteration → ∃ r, c.find k = .ok (some r) ∧ c.read r = .ok v) ∧
    (∃ c, HashMap.assign (d + 2) s s = .ok c ∧
      c.size = s.size ∧ c.iteration = s.iteration ∧
      ∀ k v, (k, v) ∈ s.iteration → ∃ r, c.find k = .ok (some r) ∧ c.read r = .ok v) := by
  have key : ∀ (acc : HashMap K V), Inv acc → acc.iteration = [] →
      ∃ c, for_each (fun acc nd => HashMap.insert (d + 2) acc (nd.first, nd.second))
          s.elements_list_ acc = .ok c ∧
        c.size = s.size ∧ c.iteration = s.iteration ∧
        ∀ k v, (k, v) ∈ s.iteration → ∃ r, c.find k = .ok (some r) ∧ c.read r = .ok v := by
    intro acc ha hempty
    obtain ⟨c, hrun, hinv, _, hit⟩ := copy_run d hs.inv ha hempty
    refine ⟨c, hrun, ?_, hit, ?_⟩
    · show c.size_ = s.size_
      rw [hinv.wf.size_iteration, hs.inv.wf.size_iteration, hit]
    · intro k v hkv
      rw [← hit] at hkv
      obtain ⟨r, h1, h2, _⟩ := hinv.findable hkv
      exact ⟨r, h1, h2⟩
  exact ⟨key _ (inv_new default_hasher) rfl, key _ (inv_clear t) rfl, key _ (inv_clear s) rfl⟩

/-- C10 at `sample_map`, copied, assigned to `small_map` and assigned to itself. -/
theorem C10_witness :
    Reachable sample_map ∧ Reachable small_map ∧
      (∃ c, HashMap.copy 2 sample_hasher sample_map = .ok c ∧
        c.size = sample_map.size ∧ c.iteration = sample_map.iteration ∧
        ∀ k v, (k, v) ∈ sample_map.iteration →
          ∃ r, c.find k = .ok (some r) ∧ c.read r = .ok v) ∧
      (∃ c, HashMap.assign 2 small_map sample_map = .ok c ∧
        c.size = sample_map.size ∧ c.iteration = sample_map.iteration ∧
        ∀ k v, (k, v) ∈ sample_map.iteration →
          ∃ r, c.find k = .ok (some r) ∧ c.read r = .ok v) ∧
      (∃ c, HashMap.assign 2 sample_map sample_map = .ok c ∧
        c.size = sample_map.size ∧ c.iteration = sample_map.iteration ∧
        ∀ k v, (k, v) ∈ sample_map.iteration →
          ∃ r, c.find k = .ok (some r) ∧ c.read r = .ok v) :=
  ⟨sample_map_reachable, small_map_reachable,
    C10_copy sample_map_reachable small_map sample_hasher 0⟩

/-! ## Constructors and copy assignment as sequences of calls -/

theorem for_each_preserves {S A : Type} (P : S → Prop) (body : S → A → Except Fault S)
    (hb : ∀ s x s', P s → body s x = .ok s' → P s') :
    ∀ (xs : List A) (s s' : S), P s → for_each body xs s = .ok s' → P s' := by
  intro xs
  induction xs with
  | nil =>
    intro s s' hs h
    have : s = s' := Except.ok.inj h
    rw [← this]; exact hs
  | cons x xs ih =>
    intro s s' hs h
    rw [for_each] at h
    cases hx : body s x with
    | error f => rw [hx] at h; cases h
    | ok s1 =>
      rw [hx] at h
      exact ih s1 s' (hb s x s1 hs hx) h

/-- One step of the list constructor leads from a reachable map to a reachable
map with the same hasher. -/
theorem from_list_step_reachable {d calls : Nat} {acc acc' : HashMap K V} {p : K × V}
    (hr : Reachable acc)
    (h : (match HashMap.subscript_op d calls acc p.1 with
          | .error f => Except.error f
          | .ok (acc1, r) => HashMap.write acc1 r p.2) = .ok acc') :
    Reachable acc' ∧ acc'.hasher_ = acc.hasher_ := by
  cases hs : HashMap.subscript_op d calls acc p.1 with
  | error f => rw [hs] at h; cases h
  | ok res =>
    obtain ⟨acc1, r⟩ := res
    rw [hs] at h
    simp only at h
    have hr1 : Reachable acc1 := Reachable.subscript_op d calls p.1 hr hs
    have hh1 := (subscript_op_result hr.inv hs).2.1
    refine ⟨Reachable.write r p.2 hr1 h, ?_⟩
    rw [write_eq h]
    exact hh1

/-- The map built by the range constructor is reachable and has the hasher given
to the constructor. -/
theorem from_range_reachable {d : Nat} {items : List (K × V)} {h : K → Nat}
    {m : HashMap K V} (hm : HashMap.from_range d items h = .ok m) :
    Reachable m ∧ m.hasher_ = h := by
  have key := for_each_preserves (fun acc : HashMap K V => Reachable acc ∧ acc.hasher_ = h)
    (fun acc p => HashMap.insert d acc (p.1, p.2))
    (fun s x s' hs hx =>
      ⟨Reachable.insert d (x.1, x.2) hs.1 hx,
        by rw [(insert_result hs.1.inv.wf hx).2.1]; exact hs.2⟩)
    items (HashMap.new h) m ⟨Reachable.new h, rfl⟩
  exact key hm

/-- The map built by the list constructor is reachable and has the
default-constructed hasher. -/
theorem from_list_reachable {d calls : Nat} {list : List (K × V)}
    {default_hasher new_hasher : K → Nat} {m : HashMap K V}
    (hm : HashMap.from_list d calls default_hasher list new_hasher = .ok m) :
    Reachable m ∧ m.hasher_ = default_hasher := by
  have key := for_each_preserves
    (fun acc : HashMap K V => Reachable acc ∧ acc.hasher_ = default_hasher)
    (fun acc p =>
      match HashMap.subscript_op d calls acc p.1 with
      | .error f => Except.error f
      | .ok (acc1, r) => HashMap.write acc1 r p.2)
    (fun s x s' hs hx =>
      ⟨(from_list_step_reachable hs.1 hx).1,
        by rw [(from_list_step_reachable hs.1 hx).2]; exact hs.2⟩)
    list (HashMap.new default_hasher) m ⟨Reachable.new default_hasher, rfl⟩
  exact key hm

/-- C11, at the code: the constructor from a hasher and the range constructor
store the hasher they are given, and every later operation keeps it; the list
constructor does not: it leaves `hasher_` default-constructed whatever
`new_hasher` is. With `Hash()` the identity and `new_hasher` the constant 0,
`hash_function()` of the map built from `{{1, 10}}` maps 1 to 1, not to 0. -/
theorem C11_list_constructor_hasher :
    (∀ h : K → Nat, (HashMap.new h : HashMap K V).hash_function = h) ∧
    (∀ (d : Nat) (items : List (K × V)) (h : K → Nat) (m : HashMap K V),
      HashMap.from_range d items h = .ok m → m.hash_function = h) ∧
    (∀ (d calls : Nat) (list : List (K × V)) (default_hasher new_hasher : K → Nat)
      (m : HashMap K V),
      HashMap.from_list d calls default_hasher list new_hasher = .ok m →
        m.hash_function = default_hasher) ∧
    (∀ m : HashMap K V, Reachable m →
      (∀ d p m', HashMap.insert d m p = .ok m' → m'.hash_function = m.hash_function) ∧
      (∀ key m', m.erase key = .ok m' → m'.hash_function = m.hash_function) ∧
      (∀ d calls key m' r, HashMap.subscript_op d calls m key = .ok (m', r) →
        m'.hash_function = m.hash_function)) ∧
    (∃ m : HashMap Nat Nat,
      HashMap.from_list 2 2 sample_hasher [(1, 10)] (fun _ => 0) = .ok m ∧
        m.hash_function 1 = 1 ∧ m.hash_function 1 ≠ (fun _ : Nat => 0) 1) := by
  refine ⟨fun h => rfl, ?_, ?_, ?_, ?_⟩
  · intro d items h m hm
    exact (from_range_reachable hm).2
  · intro d calls list dh nh m hm
    exact (from_list_reachable hm).2
  · intro m hr
    exact ⟨fun d p m' h => (insert_result hr.inv.wf h).2.1,
      fun key m' h => (erase_result hr.inv h).2.1,
      fun d calls key m' r h => (subscript_op_result hr.inv h).2.1⟩
  · exact ⟨{ hasher_ := sample_hasher, size_ := 1, elements_list_ := [⟨0, 1, 10⟩],
             array_ := [⟨none, -1⟩, ⟨some 0, 0⟩], next_ref_ := 1 },
      by rfl, by rfl, by decide⟩

/-! ## The invariants of the probe table, as the claims state them -/

/-- The number of steps from home slot `H` to the slot reached after `D` steps. -/
theorem cyc_steps {x n H D i : Nat} (hH : x % n = H) (hD : D < n)
    (hi : (x + D) % n = i) : (i + n - H) % n = D := by
  have hn : 0 < n := by omega
  have hHn : H < n := by rw [← hH]; exact Nat.mod_lt _ hn
  rw [← mod_add_shift, hH] at hi
  by_cases hlt : H + D < n
  · rw [Nat.mod_eq_of_lt hlt] at hi
    have : i + n - H = D + n := by omega
    rw [this, Nat.add_mod_right]
    exact Nat.mod_eq_of_lt hD
  · have h2 : (H + D) % n = H + D - n := by
      rw [Nat.mod_eq_sub_mod (by omega)]
      exact Nat.mod_eq_of_lt (by omega)
    rw [h2] at hi
    have : i + n - H = D := by omega
    rw [this]
    exact Nat.mod_eq_of_lt hD

/-- C13: in every reachable map, for the key `k` of every occupied slot `i`, with
home slot `h = hash(k) mod capacity`, the slots `h, h+1, ..., i-1` (taken mod
capacity) are occupied. -/
theorem C13_contiguity {m : HashMap K V} (hr : Reachable m) (i : Nat) (nd : list_node K V)
    (hocc : (slot m.array_ i).distance ≠ -1)
    (hd : deref m.elements_list_ (slot m.array_ i).iter = .ok nd) :
    ∀ t, t < (i + m.array_.length - m.hasher_ nd.first % m.array_.length) % m.array_.length →
      (slot m.array_ ((m.hasher_ nd.first % m.array_.length + t) % m.array_.length)).distance
        ≠ -1 := by
  have w := hr.inv.wf
  obtain ⟨nd1, _, _, hd1, h0, hlt, hpos⟩ := w.slot_node hocc
  rw [hd] at hd1
  have hnd : nd = nd1 := Except.ok.inj hd1
  subst hnd
  have hsteps := cyc_steps (x := m.hasher_ nd.first) (H := m.hasher_ nd.first % m.array_.length)
    rfl (show (slot m.array_ i).distance.toNat < m.array_.length by omega) hpos
  intro t ht
  rw [hsteps] at ht
  have := w.table.core.chain (m.hasher_ nd.first) (slot m.array_ i).distance.toNat
    ((slot m.array_ i).distance.toNat - t) (by omega) (by rw [hpos]; exact hocc)
    (by rw [hpos]; omega)
  have hsub : (slot m.array_ i).distance.toNat - ((slot m.array_ i).distance.toNat - t) = t := by
    omega
  rw [hsub] at this
  rw [mod_add_shift]
  exact this.1

/-- C13 at `sample_map`: key 9 has home slot 1 and sits in slot 2; slot 1 is
occupied. -/
theorem C13_witness :
    Reachable sample_map ∧ (slot sample_map.array_ 2).distance ≠ -1 ∧
      deref sample_map.elements_list_ (slot sample_map.array_ 2).iter = .ok ⟨5, 9, 90⟩ ∧
      ∀ t, t < (2 + sample_map.array_.length
            - sample_map.hasher_ 9 % sample_map.array_.length) % sample_map.array_.length →
        (slot sample_map.array_
          ((sample_map.hasher_ 9 % sample_map.array_.length + t)
            % sample_map.array_.length)).distance ≠ -1 :=
  ⟨sample_map_reachable, by decide, by rfl,
    C13_contiguity sample_map_reachable 2 ⟨5, 9, 90⟩ (by decide) (by rfl)⟩

/-- The distance stored in an occupied slot of a well-formed map, computed from
the index of the slot and the hash of its key. -/
theorem Wf.exact_distance {m : HashMap K V} (w : Wf m) (i : Nat)
    (nd : list_node K V) (hocc : (slot m.array_ i).distance ≠ -1)
    (hd : deref m.elements_list_ (slot m.array_ i).iter = .ok nd) :
    (slot m.array_ i).distance
      = ((i : Int) - ((m.hasher_ nd.first % m.array_.length : Nat) : Int))
          % (m.array_.length : Int) := by
  obtain ⟨nd1, _, _, hd1, h0, hlt, hpos⟩ := w.slot_node hocc
  rw [hd] at hd1
  have hnd : nd = nd1 := Except.ok.inj hd1
  subst hnd
  have hn : 0 < m.array_.length := by omega
  have hHn : m.hasher_ nd.first % m.array_.length < m.array_.length := Nat.mod_lt _ hn
  rw [← mod_add_shift] at hpos
  generalize m.hasher_ nd.first % m.array_.length = H at hHn hpos ⊢
  generalize hD : (slot m.array_ i).distance = D at h0 hlt hpos ⊢
  generalize m.array_.length = n at hn hHn hlt hpos ⊢
  by_cases hc : H + D.toNat < n
  · rw [Nat.mod_eq_of_lt hc] at hpos
    have : (i : Int) - (H : Int) = D := by omega
    rw [this]
    exact (Int.emod_eq_of_lt h0 hlt).symm
  · have h2 : (H + D.toNat) % n = H + D.toNat - n := by
      rw [Nat.mod_eq_sub_mod (by omega)]
      exact Nat.mod_eq_of_lt (by omega)
    rw [h2] at hpos
    have : (i : Int) - (H : Int) + (n : Int) = D := by omega
    rw [← Int.add_emod_self, this]
    exact (Int.emod_eq_of_lt h0 hlt).symm

/-- C14: in every reachable map, the distance stored in an occupied slot `i` that
holds key `k` is `(i - hash(k) mod capacity) mod capacity`. -/
theorem C14_exact_distance {m : HashMap K V} (hr : Reachable m) (i : Nat)
    (nd : list_node K V) (hocc : (slot m.array_ i).distance ≠ -1)
    (hd : deref m.elements_list_ (slot m.array_ i).iter = .ok nd) :
    (slot m.array_ i).distance
      = ((i : Int) - ((m.hasher_ nd.first % m.array_.length : Nat) : Int))
          % (m.array_.length : Int) :=
  hr.inv.wf.exact_distance i nd hocc hd

/-- C14 at `sample_map`: key 9 in slot 2 of 8, home slot 1, distance 1. -/
theorem C14_witness :
    Reachable sample_map ∧ (slot sample_map.array_ 2).distance ≠ -1 ∧
      deref sample_map.elements_list_ (slot sample_map.array_ 2).iter = .ok ⟨5, 9, 90⟩ ∧
      (slot sample_map.array_ 2).distance
        = (((2 : Nat) : Int)
            - ((sample_map.hasher_ 9 % sample_map.array_.length : Nat) : Int))
          % (sample_map.array_.length : Int) :=
  ⟨sample_map_reachable, by decide, by rfl,
    C14_exact_distance sample_map_reachable 2 ⟨5, 9, 90⟩ (by decide) (by rfl)⟩

/-- C15: in every reachable map, `size()` is the length of the record store and
the number of occupied slots; every occupied slot designates a live entry, and
every entry is designated by exactly one occupied slot. -/
theorem C15_bijection {m : HashMap K V} (hr : Reachable m) :
    m.size = m.elements_list_.length ∧ m.size = occupied_count m.array_ ∧
    (∀ i, (slot m.array_ i).distance ≠ -1 →
      ∃ nd, nd ∈ m.elements_list_ ∧ (slot m.array_ i).iter = some nd.ref ∧
        deref m.elements_list_ (slot m.array_ i).iter = .ok nd) ∧
    (∀ nd, nd ∈ m.elements_list_ →
      ∃! i, (slot m.array_ i).distance ≠ -1 ∧ (slot m.array_ i).iter = some nd.ref) ∧
    (∀ k, k ∈ m.keys →
      ∃! i, (slot m.array_ i).distance ≠ -1 ∧
        ∃ nd, deref m.elements_list_ (slot m.array_ i).iter = .ok nd ∧ nd.first = k) := by
  have w := hr.inv.wf
  refine ⟨w.size_eq, w.occupied_count_eq.symm, ?_, ?_, ?_⟩
  · intro i hi
    obtain ⟨nd, hnd, hit, hd, _⟩ := w.slot_node hi
    exact ⟨nd, hnd, hit, hd⟩
  · intro nd hnd
    obtain ⟨i, hi, hit⟩ := w.node_slot hnd
    refine ⟨i, ⟨hi, hit⟩, ?_⟩
    rintro j ⟨hj, hjt⟩
    exact w.table.core.inj j i hj hi (by rw [hjt, hit])
  · intro k hk
    obtain ⟨nd, hnd, hkey⟩ := mem_keys_iff.mp hk
    obtain ⟨i, hi, hit⟩ := w.node_slot hnd
    refine ⟨i, ⟨hi, nd, by rw [hit]; exact deref_of_mem w.refs_nodup hnd, hkey⟩, ?_⟩
    rintro j ⟨hj, nd2, hd2, hk2⟩
    obtain ⟨hmem2, hit2⟩ := deref_mem hd2
    have : nd2 = nd := node_eq_of_first w.keys_nodup hmem2 hnd (by rw [hk2, hkey])
    exact w.table.core.inj j i hj hi (by rw [hit2, hit, this])

/-- C15 at `sample_map`: three entries, three occupied slots. -/
theorem C15_witness :
    Reachable sample_map ∧ sample_map.size = 3 ∧ sample_map.elements_list_.length = 3 ∧
      occupied_count sample_map.array_ = 3 ∧
      sample_map.size = sample_map.elements_list_.length ∧
      sample_map.size = occupied_count sample_map.array_ :=
  ⟨sample_map_reachable, by decide, by decide, by decide,
    (C15_bijection sample_map_reachable).1, (C15_bijection sample_map_reachable).2.1⟩

/-- C19: in every reachable map, two cyclically adjacent occupied slots `i` and
`(i + 1) mod capacity` satisfy `distance[(i + 1) mod capacity] <= distance[i] + 1`;
hence after a slot `s` of distance 0 every slot of the same cluster, `t` steps
further, has a distance of at most `t`: its probe chain starts at `s` or later,
which is why the backward shift of `erase` may stop at `s`. -/
theorem C19_ordering {m : HashMap K V} (hr : Reachable m) :
    (∀ i, i < m.array_.length → (slot m.array_ i).distance ≠ -1 →
      (slot m.array_ ((i + 1) % m.array_.length)).distance ≠ -1 →
      (slot m.array_ ((i + 1) % m.array_.length)).distance ≤ (slot m.array_ i).distance + 1) ∧
    (∀ s t, s < m.array_.length → (slot m.array_ s).distance = 0 →
      (∀ u, u ≤ t → (slot m.array_ ((s + u) % m.array_.length)).distance ≠ -1) →
      (slot m.array_ ((s + t) % m.array_.length)).distance ≤ (t : Int)) := by
  have w := hr.inv.wf
  have adj : ∀ i, i < m.array_.length → (slot m.array_ i).distance ≠ -1 →
      (slot m.array_ ((i + 1) % m.array_.length)).distance ≠ -1 →
      (slot m.array_ ((i + 1) % m.array_.length)).distance
        ≤ (slot m.array_ i).distance + 1 := by
    intro i hi h1 h2
    obtain ⟨_, _, _, _, h0, _, _⟩ := w.slot_node h1
    by_cases hpos : 0 < (slot m.array_ ((i + 1) % m.array_.length)).distance
    · exact (w.table.core.ordered i hi hpos).2
    · omega
  refine ⟨adj, ?_⟩
  intro s t hs h0 hrun
  induction t with
  | zero =>
    rw [Nat.add_zero, Nat.mod_eq_of_lt hs, h0]
    exact Int.le_refl _
  | succ t ih =>
    have ih2 := ih (fun u hu => hrun u (by omega))
    have hn : 0 < m.array_.length := by omega
    have h1 := hrun t (by omega)
    have h2 := hrun (t + 1) (by omega)
    have hidx : ((s + t) % m.array_.length + 1) % m.array_.length
        = (s + (t + 1)) % m.array_.length := by
      rw [mod_succ_shift]; rfl
    have := adj ((s + t) % m.array_.length) (Nat.mod_lt _ hn) h1 (by rw [hidx]; exact h2)
    rw [hidx] at this
    push_cast
    omega

/-- C19 at `sample_map`: slots 1 and 2 are occupied with distances 0 and 1. -/
theorem C19_witness :
    Reachable sample_map ∧ (slot sample_map.array_ 1).distance = 0 ∧
      (slot sample_map.array_ 2).distance = 1 ∧
      (slot sample_map.array_ ((1 + 1) % sample_map.array_.length)).distance
        ≤ (slot sample_map.array_ 1).distance + 1 :=
  ⟨sample_map_reachable, by decide, by decide,
    (C19_ordering sample_map_reachable).1 1 (by decide) (by decide) (by decide)⟩

/-! ## `resize_map` -/

theorem new_capacity_eq_max (s c : Nat) : new_capacity s c = max (2 * c) (ceil_load s) := by
  unfold new_capacity
  split <;> omega

/-- C16: for every reachable map with capacity `c` and size `s`, `resize_map`
returns a map whose probe table has capacity `max(2 * c, ceil((s + 1) / (13/20)))`,
with the same size and the same iteration sequence; the new table is the result
of inserting the entries in order, by `insert`, into a table of that capacity
with all slots free, and every stored distance is the exact distance in the new
capacity. -/
theorem C16_resize_map {m : HashMap K V} (hr : Reachable m) (d : Nat) :
    ∃ m', m.resize_map (d + 1) = .ok m' ∧
      m'.array_.length = max (2 * m.array_.length) (ceil_load m.size) ∧
      (ceil_load m.size : ℤ) = ⌈(((m.size + 1 : Nat) : ℚ)) / (13 / 20)⌉ ∧
      m'.size = m.size ∧ m'.iteration = m.iteration ∧
      m.resize_map (d + 1)
        = for_each (fun acc nd => HashMap.insert (d + 1) acc (nd.first, nd.second))
            m.elements_list_
            { hasher_ := m.hasher_, size_ := 0, elements_list_ := [],
              array_ := List.replicate (max (2 * m.array_.length) (ceil_load m.size)) ⟨none, -1⟩,
              next_ref_ := m.next_ref_ } ∧
      ∀ i nd, (slot m'.array_ i).distance ≠ -1 →
        deref m'.elements_list_ (slot m'.array_ i).iter = .ok nd →
        (slot m'.array_ i).distance
          = ((i : Int) - ((m'.hasher_ nd.first % m'.array_.length : Nat) : Int))
              % (m'.array_.length : Int) := by
  have w := hr.inv.wf
  obtain ⟨m', hres, hw, hlen, _, hit⟩ := resize_map_spec d w
  refine ⟨m', hres, ?_, ceil_load_rat m.size, ?_, hit, ?_, ?_⟩
  · rw [hlen, new_capacity_eq_max]; rfl
  · show m'.size_ = m.size_
    rw [hw.size_iteration, w.size_iteration, hit]
  · unfold HashMap.resize_map resize_map_with
    have hcap := new_capacity_eq_max m.size_ m.array_.length
    unfold new_capacity at hcap
    simp only [hcap]
    rfl
  · intro i nd hocc hd
    exact hw.exact_distance i nd hocc hd

/-- C16 at `small_map`: capacity 4 and size 2 give capacity `max(8, 5) = 8`. -/
theorem C16_witness :
    Reachable small_map ∧
      max (2 * small_map.array_.length) (ceil_load small_map.size) = 8 ∧
      ∃ m', small_map.resize_map 1 = .ok m' ∧
        m'.array_.length = max (2 * small_map.array_.length) (ceil_load small_map.size) ∧
        m'.size = small_map.size ∧ m'.iteration = small_map.iteration := by
  refine ⟨small_map_reachable, by decide, ?_⟩
  obtain ⟨m', h1, h2, _, h3, h4, _⟩ := C16_resize_map small_map_reachable 0
  exact ⟨m', h1, h2, h3, h4⟩

/-! ## Keys with a common home slot -/

/-- The displacement walk along a run of slots whose distances are `cd`, `cd + 1`,
... up to a free slot: no element is displaced, the carried element is written in
the free slot. -/
theorem walk_stack :
    ∀ (r fuel : Nat) (a : List array_element) (p cd : Nat) (c : Option Nat),
      p < a.length → r < fuel →
      (∀ u, u < r → (slot a ((p + u) % a.length)).distance = ((cd + u : Nat) : Int)) →
      (slot a ((p + r) % a.length)).distance = -1 →
      insert_walk fuel a p (cd : Int) c
        = .ok (a.set ((p + r) % a.length) ⟨c, ((cd + r : Nat) : Int)⟩) := by
  intro r
  induction r with
  | zero =>
    intro fuel a p cd c hp hfuel _ hfree
    obtain ⟨f, rfl⟩ : ∃ f, fuel = f + 1 := ⟨fuel - 1, by omega⟩
    have hz : (p + 0) % a.length = p := by rw [Nat.add_zero, Nat.mod_eq_of_lt hp]
    rw [hz] at hfree ⊢
    rw [insert_walk, subscript_of_lt hp]
    simp only [hfree, ne_eq, not_true_eq_false, if_false, Nat.add_zero]
  | succ r ih =>
    intro fuel a p cd c hp hfuel hrun hfree
    obtain ⟨f, rfl⟩ : ∃ f, fuel = f + 1 := ⟨fuel - 1, by omega⟩
    have h0 := hrun 0 (by omega)
    rw [Nat.add_zero, Nat.mod_eq_of_lt hp, Nat.add_zero] at h0
    have hshift : ∀ t, ((p + 1) % a.length + t) % a.length = (p + (t + 1)) % a.length := by
      intro t
      rw [mod_add_shift]; congr 1; omega
    have hocc : (slot a p).distance ≠ -1 := by rw [h0]; omega
    have hnlt : ¬ (slot a p).distance < (cd : Int) := by rw [h0]; omega
    rw [insert_walk, subscript_of_lt hp]
    simp only [hocc, ne_eq, not_false_eq_true, if_true, hnlt, if_false]
    have := ih f a ((p + 1) % a.length) (cd + 1) c (Nat.mod_lt _ (by omega)) (by omega)
      (by
        intro u hu
        rw [hshift, hrun (u + 1) (by omega)]
        congr 1; omega)
      (by rw [hshift]; exact hfree)
    rw [hshift] at this
    have hcast : ((cd + 1 : Nat) : Int) = (cd : Int) + 1 := by push_cast; rfl
    rw [hcast] at this
    rw [this]
    have h2 : cd + 1 + r = cd + (r + 1) := by omega
    rw [h2]

/-- The body of `insert` for a missing key whose home slot starts a run of `j`
slots with distances `0, 1, ..., j - 1` followed by a free slot: the new node is
stored in that free slot with distance `j`. -/
theorem insert_body_stack {m : HashMap K V} (w : Wf m) (hroom : m.size_ < m.array_.length)
    {p : K × V} (habs : ∀ nd, nd ∈ m.elements_list_ → nd.first ≠ p.1) (j : Nat)
    (hstack : ∀ u, u < j →
      (slot m.array_ ((m.hasher_ p.1 % m.array_.length + u) % m.array_.length)).distance
        = (u : Int))
    (hfree :
      (slot m.array_ ((m.hasher_ p.1 % m.array_.length + j) % m.array_.length)).distance = -1) :
    insert_body m p
        = .ok (inserted m p
            (m.array_.set ((m.hasher_ p.1 % m.array_.length + j) % m.array_.length)
              ⟨some m.next_ref_, (j : Int)⟩)) ∧
      Wf (inserted m p
            (m.array_.set ((m.hasher_ p.1 % m.array_.length + j) % m.array_.length)
              ⟨some m.next_ref_, (j : Int)⟩)) := by
  have hn : 0 < m.array_.length := by omega
  have hne : ¬ m.array_.length = 0 := by omega
  have hp : m.hasher_ p.1 % m.array_.length < m.array_.length := Nat.mod_lt _ hn
  have hcount : occupied_count m.array_ < m.array_.length := by
    rw [w.occupied_count_eq]; exact hroom
  have hj : j < m.array_.length := by
    by_contra hge
    obtain ⟨q, hq, hqf⟩ := exists_free_slot hcount
    obtain ⟨t, ht, hreach⟩ := cyc_reach hp hq
    have := hstack t (by omega)
    rw [hreach, hqf] at this
    omega
  have hwalk := walk_stack j m.array_.length m.array_ (m.hasher_ p.1 % m.array_.length) 0
    (some m.next_ref_) hp hj
    (by intro u hu; rw [hstack u hu]; congr 1; omega) hfree
  simp only [Nat.cast_zero, Nat.zero_add] at hwalk
  have hbody : insert_body m p
      = .ok (inserted m p
          (m.array_.set ((m.hasher_ p.1 % m.array_.length + j) % m.array_.length)
            ⟨some m.next_ref_, (j : Int)⟩)) := by
    unfold insert_body
    rw [if_neg hne, insert_scan_eq, w.lookup_absent hroom habs]
    simp only [ne_eq, not_true_eq_false, decide_False, Bool.not_false, if_true, hwalk]
    rfl
  refine ⟨hbody, ?_⟩
  obtain ⟨a, hbody2, _, hw⟩ := insert_body_absent w hroom habs
  rw [hbody] at hbody2
  have := Except.ok.inj hbody2
  rw [this]
  exact hw

theorem offset_mod_inj {home u v n : Nat} (hu : u < n) (hv : v < n)
    (h : (home + u) % n = (home + v) % n) : u = v := by
  have h1 := Nat.ModEq.add_left_cancel' home h
  rw [Nat.ModEq, Nat.mod_eq_of_lt hu, Nat.mod_eq_of_lt hv] at h1
  exact h1

theorem Wf.keys_length {m : HashMap K V} (w : Wf m) : m.keys.length = m.size_ := by
  rw [w.size_iteration]
  unfold HashMap.keys
  rw [List.length_map]

/-- The body of `insert` on a table that is one chain from `home`, for a missing
key with that home slot: the key is appended to the chain. -/
theorem stack_insert {m : HashMap K V} (w : Wf m) {home : Nat}
    (st : same_home_stack m home) (hroom : m.size_ < m.array_.length) {p : K × V}
    (habs : p.1 ∉ m.keys) (hhome : m.hasher_ p.1 % m.array_.length = home) :
    ∃ m', insert_body m p = .ok m' ∧ Wf m' ∧ same_home_stack m' home ∧
      m'.iteration = m.iteration ++ [p] ∧ m'.array_.length = m.array_.length ∧
      m'.hasher_ = m.hasher_ := by
  have hstk := insert_body_stack w hroom (not_mem_keys_iff.mp habs) m.size_
    (by intro u hu; rw [hhome]; exact ((st u (by omega)).1 hu).1)
    (by rw [hhome]; exact (st m.size_ hroom).2 (Nat.le_refl _))
  rw [hhome] at hstk
  obtain ⟨hbody, hw⟩ := hstk
  refine ⟨_, hbody, hw, ?_, iteration_inserted m p _, List.length_set _ _ _, rfl⟩
  have hkeys : (inserted m p
      (m.array_.set ((home + m.size_) % m.array_.length)
        ⟨some m.next_ref_, (m.size_ : Int)⟩)).keys = m.keys ++ [p.1] :=
    keys_append_singleton (iteration_inserted m p _)
  have hposlt : (home + m.size_) % m.array_.length < m.array_.length :=
    Nat.mod_lt _ (by omega)
  intro u hu
  have hlen : (inserted m p
      (m.array_.set ((home + m.size_) % m.array_.length)
        ⟨some m.next_ref_, (m.size_ : Int)⟩)).array_.length = m.array_.length :=
    List.length_set _ _ _
  rw [hlen] at hu
  rw [hlen, hkeys]
  show (u < m.size_ + 1 →
      (slot (m.array_.set ((home + m.size_) % m.array_.length)
        ⟨some m.next_ref_, (m.size_ : Int)⟩) ((home + u) % m.array_.length)).distance = (u : Int) ∧
      ∃ nd, deref (m.elements_list_ ++ [⟨m.next_ref_, p.1, p.2⟩])
          (slot (m.array_.set ((home + m.size_) % m.array_.length)
            ⟨some m.next_ref_, (m.size_ : Int)⟩) ((home + u) % m.array_.length)).iter = .ok nd ∧
        (m.keys ++ [p.1])[u]? = some nd.first) ∧
    (m.size_ + 1 ≤ u →
      (slot (m.array_.set ((home + m.size_) % m.array_.length)
        ⟨some m.next_ref_, (m.size_ : Int)⟩) ((home + u) % m.array_.length)).distance = -1)
  have hrefs : ((m.elements_list_ ++ [(⟨m.next_ref_, p.1, p.2⟩ : list_node K V)]).map
      (fun nd : list_node K V => nd.ref)).Nodup := hw.refs_nodup
  by_cases hus : u = m.size_
  · subst hus
    rw [slot_set_self _ hposlt]
    constructor
    · intro _
      refine ⟨rfl, ⟨m.next_ref_, p.1, p.2⟩, ?_, ?_⟩
      · exact deref_of_mem hrefs (List.mem_append_right _ (List.mem_singleton.mpr rfl))
      · rw [List.getElem?_append_right (by rw [w.keys_length]), w.keys_length]
        simp
    · intro h; omega
  · have hne : (home + u) % m.array_.length ≠ (home + m.size_) % m.array_.length :=
      fun h => hus (offset_mod_inj hu hroom h)
    rw [slot_set_ne _ hne]
    constructor
    · intro hlt
      have hlt2 : u < m.size_ := by omega
      obtain ⟨hd, nd, hderef, hk⟩ := (st u hu).1 hlt2
      refine ⟨hd, nd, ?_, ?_⟩
      · obtain ⟨hmem, hit⟩ := deref_mem hderef
        rw [hit]
        exact deref_of_mem hrefs (List.mem_append_left _ hmem)
      · rw [List.getElem?_append_left (by rw [w.keys_length]; exact hlt2)]
        exact hk
    · intro hge
      exact (st u hu).2 (by omega)

/-- A run of `insert` calls for distinct missing keys with the same home slot, on
a table that is one chain from that slot and is large enough: no call resizes
and the keys are appended to the chain in order. -/
theorem same_home_run (d : Nat) :
    ∀ (xs : List (K × V)) (acc : HashMap K V) (home : Nat), Wf acc →
      same_home_stack acc home →
      (xs.map Prod.fst).Nodup → (∀ x, x ∈ xs → x.1 ∉ acc.keys) →
      (∀ x, x ∈ xs → acc.hasher_ x.1 % acc.array_.length = home) →
      20 * (acc.size_ + xs.length) < 13 * acc.array_.length →
      ∃ acc', for_each (HashMap.insert (d + 1)) xs acc = .ok acc' ∧ Wf acc' ∧
        same_home_stack acc' home ∧ acc'.iteration = acc.iteration ++ xs ∧
        acc'.array_.length = acc.array_.length ∧ acc'.hasher_ = acc.hasher_ := by
  intro xs
  induction xs with
  | nil =>
    intro acc home w st _ _ _ _
    exact ⟨acc, rfl, w, st, by simp, rfl, rfl⟩
  | cons x xs ih =>
    intro acc home w st hnd habs hhome hcap
    rw [List.map_cons, List.nodup_cons] at hnd
    rw [List.length_cons] at hcap
    have hnr : needs_resize acc.size_ acc.array_.length = false := by
      rw [needs_resize_false_iff]; omega
    obtain ⟨acc1, hbody, hw1, hst1, hit1, hlen1, hh1⟩ :=
      stack_insert w st (by omega) (habs x (List.mem_cons_self _ _))
        (hhome x (List.mem_cons_self _ _))
    have hsz1 : acc1.size_ = acc.size_ + 1 := by
      rw [hw1.size_iteration, w.size_iteration, hit1]; simp
    obtain ⟨acc', hrun, hw', hst', hit', hlen', hh'⟩ :=
      ih acc1 home hw1 hst1 hnd.2
        (by
          intro y hy hmem
          rw [keys_append_singleton hit1] at hmem
          rcases List.mem_append.mp hmem with h1 | h1
          · exact habs y (List.mem_cons_of_mem _ hy) h1
          · rw [List.mem_singleton] at h1
            exact hnd.1 (List.mem_map.mpr ⟨y, hy, h1⟩))
        (by
          intro y hy
          rw [hh1, hlen1]
          exact hhome y (List.mem_cons_of_mem _ hy))
        (by rw [hsz1, hlen1]; omega)
    refine ⟨acc', ?_, hw', hst', ?_, by rw [hlen', hlen1], by rw [hh', hh1]⟩
    · rw [for_each, insert_no_resize d x hnr, hbody]
      exact hrun
    · rw [hit', hit1]; simp

theorem stack_cleared (h : K → Nat) (n next home : Nat) :
    same_home_stack
      ({ hasher_ := h, size_ := 0, elements_list_ := [],
         array_ := List.replicate n ⟨none, -1⟩, next_ref_ := next } : HashMap K V) home := by
  intro u _
  constructor
  · intro hu
    exact absurd hu (Nat.not_lt_zero _)
  · intro _
    show (slot (List.replicate n free_slot) _).distance = -1
    rw [slot_replicate]
    rfl

/-- C12 as the code has it: the third `insert` resizes the table of 4 slots, so
for three distinct keys `A`, `B`, `C` whose hashes have the same home slot in a
table of 8 slots, inserting `A`, `B`, `C` into an empty map leaves a probe table of
capacity 8 in which `A`, `B` and `C` are stored with distances 0, 1 and 2 in the
three consecutive slots that start at their home slot, the other slots being
free. -/
theorem C12_same_home_chain (h : K → Nat) (A B C : K) (a b c : V)
    (hAB : A ≠ B) (hAC : A ≠ C) (hBC : B ≠ C)
    (hB : h B % 8 = h A % 8) (hC : h C % 8 = h A % 8) (d : Nat) :
    ∃ m, HashMap.from_range (d + 2) [(A, a), (B, b), (C, c)] h = .ok m ∧
      m.array_.length = 8 ∧ occupied_count m.array_ = 3 ∧
      (∃ nd, (slot m.array_ (h A % 8)).distance = 0 ∧
        deref m.elements_list_ (slot m.array_ (h A % 8)).iter = .ok nd ∧ nd.first = A) ∧
      (∃ nd, (slot m.array_ ((h A % 8 + 1) % 8)).distance = 1 ∧
        deref m.elements_list_ (slot m.array_ ((h A % 8 + 1) % 8)).iter = .ok nd ∧
        nd.first = B) ∧
      (∃ nd, (slot m.array_ ((h A % 8 + 2) % 8)).distance = 2 ∧
        deref m.elements_list_ (slot m.array_ ((h A % 8 + 2) % 8)).iter = .ok nd ∧
        nd.first = C) := by
  -- first and second `insert`
  obtain ⟨m1, hins1, hinv1, hh1, _, habs1, hlen1, _⟩ :=
    insert_spec d (inv_new h).wf ((A, a) : K × V)
  have hit1 : m1.iteration = [(A, a)] :=
    habs1 (by simp [HashMap.keys, HashMap.iteration, HashMap.new])
  have hsz1 : m1.size_ = 1 := by rw [hinv1.wf.size_iteration, hit1]; rfl
  have hcap1 : m1.array_.length = 2 := by
    rw [hlen1]
    show (if needs_resize 0 0 = true then new_capacity 0 0 else 0) = 2
    decide
  obtain ⟨m2, hins2, hinv2, hh2, _, habs2, hlen2, _⟩ := insert_spec d hinv1.wf ((B, b) : K × V)
  have hit2 : m2.iteration = [(A, a), (B, b)] := by
    rw [habs2 (by
      unfold HashMap.keys
      rw [hit1]
      simp only [List.map_cons, List.map_nil, List.mem_singleton]
      exact fun hba => hAB hba.symm), hit1]
    rfl
  have hsz2 : m2.size_ = 2 := by rw [hinv2.wf.size_iteration, hit2]; rfl
  have hcap2 : m2.array_.length = 4 := by rw [hlen2, hsz1, hcap1]; decide
  have hhash2 : m2.hasher_ = h := by rw [hh2, hh1]; rfl
  -- the third `insert` rebuilds the table with 8 slots
  have hres : resize_map_with (HashMap.insert (d + 1)) m2
      = for_each (HashMap.insert (d + 1)) [(A, a), (B, b)]
          ({ hasher_ := m2.hasher_, size_ := 0, elements_list_ := [],
             array_ := List.replicate 8 ⟨none, -1⟩, next_ref_ := m2.next_ref_ } :
            HashMap K V) := by
    have hmap := for_each_map (HashMap.insert (d + 1))
      (fun nd : list_node K V => (nd.first, nd.second)) m2.elements_list_
      ({ hasher_ := m2.hasher_, size_ := 0, elements_list_ := [],
         array_ := List.replicate 8 ⟨none, -1⟩, next_ref_ := m2.next_ref_ } : HashMap K V)
    have hit2b : m2.elements_list_.map (fun nd : list_node K V => (nd.first, nd.second))
        = [(A, a), (B, b)] := hit2
    rw [hit2b] at hmap
    rw [← hmap]
    unfold resize_map_with
    rw [hcap2, hsz2]
    rfl
  obtain ⟨acc2, hrun2, hw2, hst2, hit2c, hlenc, hhc⟩ :=
    same_home_run d [(A, a), (B, b)]
      ({ hasher_ := m2.hasher_, size_ := 0, elements_list_ := [],
         array_ := List.replicate 8 ⟨none, -1⟩, next_ref_ := m2.next_ref_ } : HashMap K V)
      (h A % 8) (wf_cleared m2.hasher_ 8 m2.next_ref_) (stack_cleared m2.hasher_ 8 _ _)
      (by
        simp only [List.map_cons, List.map_nil, List.nodup_cons, List.mem_singleton,
          List.not_mem_nil, not_false_eq_true, List.nodup_nil, and_true]
        exact hAB)
      (by intro x _ hx; simp [HashMap.keys, HashMap.iteration] at hx)
      (by
        intro x hx
        simp only [List.length_replicate]
        rw [hhash2]
        simp only [List.mem_cons, List.mem_singleton, List.not_mem_nil, or_false] at hx
        rcases hx with hx | hx
        · rw [hx]
        · rw [hx]; exact hB)
      (by simp only [List.length_replicate, List.length_cons, List.length_nil]; omega)
  have hlenc2 : acc2.array_.length = 8 := by rw [hlenc]; simp
  have hitc : acc2.iteration = [(A, a), (B, b)] := by
    rw [hit2c]; simp [HashMap.iteration]
  have hszc : acc2.size_ = 2 := by rw [hw2.size_iteration, hitc]; rfl
  obtain ⟨m3, hbody3, hw3, hst3, hit3, hlen3, _⟩ :=
    stack_insert (p := ((C, c) : K × V)) hw2 hst2 (by rw [hszc, hlenc2]; omega)
      (by
        unfold HashMap.keys
        rw [hitc]
        simp only [List.map_cons, List.map_nil, List.mem_cons, List.mem_singleton,
          List.not_mem_nil, or_false, not_or]
        exact ⟨fun h1 => hAC h1.symm, fun h1 => hBC h1.symm⟩)
      (by rw [hhc, hlenc2, hhash2]; exact hC)
  have hins3 : HashMap.insert (d + 2) m2 (C, c) = .ok m3 := by
    rw [HashMap.insert]
    have hnr : needs_resize m2.size_ m2.array_.length = true := by
      rw [hsz2, hcap2]; decide
    rw [hnr]
    simp only [if_true, hres, hrun2]
    exact hbody3
  have hlen38 : m3.array_.length = 8 := by rw [hlen3, hlenc2]
  have hit3b : m3.iteration = [(A, a), (B, b), (C, c)] := by rw [hit3, hitc]; rfl
  have hsz3 : m3.size_ = 3 := by rw [hw3.size_iteration, hit3b]; rfl
  have hkeys3 : m3.keys = [A, B, C] := by unfold HashMap.keys; rw [hit3b]; rfl
  have level : ∀ u (X : K), u < 3 → [A, B, C][u]? = some X →
      ∃ nd, (slot m3.array_ ((h A % 8 + u) % 8)).distance = (u : Int) ∧
        deref m3.elements_list_ (slot m3.array_ ((h A % 8 + u) % 8)).iter = .ok nd ∧
        nd.first = X := by
    intro u X hu hX
    obtain ⟨hd, nd, hderef, hk⟩ := (hst3 u (by rw [hlen38]; omega)).1 (by rw [hsz3]; exact hu)
    rw [hlen38] at hd hderef
    rw [hkeys3, hX] at hk
    exact ⟨nd, hd, hderef, (Option.some.inj hk).symm⟩
  refine ⟨m3, ?_, hlen38, ?_, ?_, level 1 B (by omega) rfl, level 2 C (by omega) rfl⟩
  · show for_each (fun acc p => HashMap.insert (d + 2) acc (p.1, p.2))
        [(A, a), (B, b), (C, c)] (HashMap.new h) = .ok m3
    rw [for_each]
    simp only [hins1]
    rw [for_each]
    simp only [hins2]
    rw [for_each]
    simp only [hins3]
    rfl
  · rw [hw3.occupied_count_eq, hsz3]
  · have := level 0 A (by omega) rfl
    rw [Nat.add_zero, Nat.mod_mod] at this
    exact this

/-- C12 at the keys 0, 8, 16 hashed to themselves. -/
theorem C12_witness :
    (0 : Nat) ≠ 8 ∧ (0 : Nat) ≠ 16 ∧ (8 : Nat) ≠ 16 ∧
      sample_hasher 8 % 8 = sample_hasher 0 % 8 ∧
      sample_hasher 16 % 8 = sample_hasher 0 % 8 ∧
      ∃ m, HashMap.from_range 2 [(0, 0), (8, 80), (16, 160)] sample_hasher = .ok m ∧
        m.array_.length = 8 ∧ occupied_count m.array_ = 3 ∧
        (∃ nd, (slot m.array_ (sample_hasher 0 % 8)).distance = 0 ∧
          deref m.elements_list_ (slot m.array_ (sample_hasher 0 % 8)).iter = .ok nd ∧
          nd.first = 0) ∧
        (∃ nd, (slot m.array_ ((sample_hasher 0 % 8 + 1) % 8)).distance = 1 ∧
          deref m.elements_list_ (slot m.array_ ((sample_hasher 0 % 8 + 1) % 8)).iter = .ok nd ∧
          nd.first = 8) ∧
        (∃ nd, (slot m.array_ ((sample_hasher 0 % 8 + 2) % 8)).distance = 2 ∧
          deref m.elements_list_ (slot m.array_ ((sample_hasher 0 % 8 + 2) % 8)).iter = .ok nd ∧
          nd.first = 16) :=
  ⟨by decide, by decide, by decide, by decide, by decide,
    C12_same_home_chain sample_hasher 0 8 16 0 80 160 (by decide) (by decide) (by decide)
      (by decide) (by decide) 0⟩

/-- C12 as stated fails: the keys 0, 8, 16, hashed to themselves, have the same
home slot in a table of 4 slots (and of 2 and of 8), and inserting them into an
empty map leaves a probe table of 8 slots, not of 4. -/
theorem C12_counterexample :
    sample_hasher 0 % 4 = sample_hasher 8 % 4 ∧ sample_hasher 8 % 4 = sample_hasher 16 % 4 ∧
      HashMap.from_range 2 [(0, 0), (8, 80), (16, 160)] sample_hasher = .ok chain_map ∧
      chain_map.array_.length = 8 ∧ chain_map.array_.length ≠ 4 :=
  ⟨by decide, by decide, by rfl, by decide, by decide⟩

/-! ## The shape of the backward shift -/

end Reachability

end RobinHood
